import Mathlib

/-!
Shallow embedding of the `algo-arcade` optimization backend and proofs about it.

Embedded source files:
* `src/backend/algos/opt/knapsack_greedy.py`  (knapsack_greedy)
* `src/backend/algos/opt/knapsack_dp.py`      (knapsack_dp)
* `src/backend/algos/opt/tsp_2opt.py`         (calculate_distance, calculate_route_distance,
                                               two_opt_swap, tsp_2opt)
* `src/backend/algos/meta/simulated_annealing.py` (tsp_simulated_annealing)
* `src/backend/services/packing_planner.py`   (solve_packing)
* `src/backend/services/route_planner.py`     (solve_route)

Conventions of the embedding:
* Python floats are embedded as exact rationals `ℚ` (knapsack / service layer) or reals `ℝ`
  (TSP code, whose distances use `math.sqrt`).
* Python dicts are embedded as association lists in insertion order: lookup takes the first
  matching key, update replaces the value in place keeping the key position, and a fresh key
  is appended at the end.  This reproduces the iteration order of CPython dicts, which the
  DP solver observably relies on.
* `int(x)` (truncation toward zero) is embedded as `pyInt`.
* `random.randint(lo, hi)` raises `ValueError` when `lo > hi`; fallible computations are
  embedded in `Option`, with `none` standing for a raised exception or a non-terminating
  loop (the DP traceback loop can genuinely loop forever, see `tracebackAux`).
-/

namespace AlgoArcade

/-! ### Association lists modelling Python dicts (insertion ordered) -/

/-- Lookup in an insertion-ordered association list: first matching key wins. -/
def dictGet? {K V : Type} [DecidableEq K] : List (K × V) → K → Option V
  | [], _ => none
  | (k', v) :: rest, k => if k' = k then some v else dictGet? rest k

/-- Update in an insertion-ordered association list: replace the first occurrence of the key
in place (keeping its position, as CPython dicts do), else append the new pair. -/
def dictSet {K V : Type} [DecidableEq K] : List (K × V) → K → V → List (K × V)
  | [], k, v => [(k, v)]
  | (k', v') :: rest, k, v =>
    if k' = k then (k', v) :: rest else (k', v') :: dictSet rest k v

/-! ### Data model: items (src/backend: knapsack item dicts)

A Python item dict carries `name`, `value`, `weight`, `cost`, `category`; `name` is never
read by either solver, and `item.get('category', '')` defaults to the empty string, so the
embedding keeps a total `category : String` field. -/

/-- Knapsack item: `value`, `cost`, `weight` and `category` of the Python item dict. -/
structure Item where
  value : ℚ
  cost : ℚ
  weight : ℚ
  category : String
deriving DecidableEq, Repr

/-- Recomputed total cost of a selection, `sum(item['cost'] for item in selected_items)`. -/
def sumCost (l : List Item) : ℚ := (l.map (·.cost)).sum

/-- Recomputed total weight of a selection. -/
def sumWeight (l : List Item) : ℚ := (l.map (·.weight)).sum

/-- Recomputed total value of a selection. -/
def sumValue (l : List Item) : ℚ := (l.map (·.value)).sum

/-- Number of selected items carrying the given category. -/
def countCat (l : List Item) (cat : String) : ℕ := (l.filter (fun it => it.category = cat)).length

/-- Python truthiness of the optional `category_limit` dict: `None` and the empty dict are
falsy, every nonempty dict is truthy (`if category_limit and ...` / `if category_limit:`). -/
def limitsActive : Option (List (String × ℕ)) → Bool
  | none => false
  | some m => !m.isEmpty

/-! ### knapsack_greedy (src/backend/algos/opt/knapsack_greedy.py, lines 27-67) -/

/-- Sort key of the greedy solver:
`x[1]['value'] / x[1]['cost'] if x[1]['cost'] > 0 else 0` (line 30). -/
def ratioKey (it : Item) : ℚ := if it.cost > 0 then it.value / it.cost else 0

/-- Accumulator of the greedy selection pass (`selected_items`, running totals and the
per-category admission counters; the Python `selected_indices` set is never read again
and is omitted). -/
structure GreedyAcc where
  selected : List Item
  total_cost : ℚ
  total_weight : ℚ
  total_value : ℚ
  category_counts : List (String × ℕ)

/-- Category admission test of the greedy loop:
`category_limit and category in category_limit` and then `current_count >= limit`. -/
def categoryBlocked (category_limit : Option (List (String × ℕ)))
    (counts : List (String × ℕ)) (cat : String) : Bool :=
  limitsActive category_limit &&
    (match dictGet? (category_limit.getD []) cat with
     | some lim => decide (lim ≤ (dictGet? counts cat).getD 0)
     | none => false)

/-- One step of the greedy `for idx, item in indexed_items:` loop (lines 41-67):
skip when the item breaks the budget, the weight bound or a category cap, otherwise admit
it, update the totals and bump the category counter (only for a nonempty category name,
`if category:`). -/
def greedyStep (budget max_weight : ℚ) (category_limit : Option (List (String × ℕ)))
    (acc : GreedyAcc) (item : Item) : GreedyAcc :=
  if acc.total_cost + item.cost > budget then acc
  else if acc.total_weight + item.weight > max_weight then acc
  else if categoryBlocked category_limit acc.category_counts item.category then acc
  else
    { selected := acc.selected ++ [item]
      total_cost := acc.total_cost + item.cost
      total_weight := acc.total_weight + item.weight
      total_value := acc.total_value + item.value
      category_counts :=
        if item.category ≠ "" then
          dictSet acc.category_counts item.category
            ((dictGet? acc.category_counts item.category).getD 0 + 1)
        else acc.category_counts }

/-- `knapsack_greedy` (lines 8-67): stable-sort the items by descending value/cost ratio
(`list.sort(key=..., reverse=True)`, ties keeping original order), then admit greedily.
The Python code sorts `(index, item)` pairs, but the index component is only used to fill
the write-only `selected_indices` set, so sorting the items directly is observationally
equal.  Returns `(selected_items, total_value, total_cost, total_weight)`. -/
def knapsack_greedy (items : List Item) (budget max_weight : ℚ)
    (category_limit : Option (List (String × ℕ))) : List Item × ℚ × ℚ × ℚ :=
  let sorted := items.mergeSort (fun a b => decide (ratioKey b ≤ ratioKey a))
  let acc := sorted.foldl (greedyStep budget max_weight category_limit)
    ⟨[], 0, 0, 0, []⟩
  (acc.selected, acc.total_value, acc.total_cost, acc.total_weight)

/-! ### knapsack_dp (src/backend/algos/opt/knapsack_dp.py, lines 9-124) -/

/-- Default item used to totalize `items[i]` indexing (never observed on in-range
indices). -/
def defaultItem : Item := ⟨0, 0, 0, ""⟩

/-- Python `int(x)`: truncation toward zero. -/
def pyInt (x : ℚ) : ℤ := if 0 ≤ x then ⌊x⌋ else ⌈x⌉

/-- Scaled-integer representation used by the DP: `int(x * 100)`. -/
def centScale (x : ℚ) : ℤ := pyInt (x * 100)

/-- DP working state: the `dp` dict mapping a `(spent_budget_int, spent_weight_int)` state
to the best value found so far, and the `parent` dict mapping a state to
`(prev_b, prev_w, item_idx)` (or `None` for the origin). -/
structure DpSt where
  dp : List ((ℤ × ℤ) × ℚ)
  parent : List ((ℤ × ℤ) × Option ((ℤ × ℤ) × ℕ))

/-- Inner loop of the DP over the snapshot `current_states = list(dp.keys())` taken before
the item is processed (lines 67-83).  For each snapshot state, the transition is skipped
when it breaks a bound; otherwise `current_value = dp.get((b, w), 0.0)` is read from the
*current* (possibly already updated) dict — exactly as the source does — and the
destination is overwritten when the new value beats `dp.get((new_b, new_w), -1.0)`. -/
def dpInner (budget_int max_weight_int ci wi : ℤ) (v : ℚ) (i : ℕ) :
    DpSt → List (ℤ × ℤ) → DpSt
  | st, [] => st
  | st, (b, w) :: ks =>
    let nb := b + ci
    let nw := w + wi
    if nb > budget_int ∨ nw > max_weight_int then
      dpInner budget_int max_weight_int ci wi v i st ks
    else
      let cur := (dictGet? st.dp (b, w)).getD 0
      let nv := cur + v
      if nv > (dictGet? st.dp (nb, nw)).getD (-1) then
        dpInner budget_int max_weight_int ci wi v i
          ⟨dictSet st.dp (nb, nw) nv, dictSet st.parent (nb, nw) (some ((b, w), i))⟩ ks
      else
        dpInner budget_int max_weight_int ci wi v i st ks

/-- Processing of one item of the DP (lines 54-83): scale its cost and weight, snapshot the
current state keys and run the inner transition loop.  (The `can_take` category block of
the source is a `pass`, so it contributes nothing.) -/
def dpStep (budget_int max_weight_int : ℤ) (st : DpSt) (p : ℕ × Item) : DpSt :=
  dpInner budget_int max_weight_int (centScale p.2.cost) (centScale p.2.weight)
    p.2.value p.1 st (st.dp.map (·.1))

/-- Best-state scan (lines 85-91): fold over the `dp` dict in insertion order starting from
`best_value = 0.0`, `best_state = (0, 0)`, updating on a strictly greater value. -/
def bestState (dp : List ((ℤ × ℤ) × ℚ)) : ℚ × (ℤ × ℤ) :=
  dp.foldl (fun acc kv => if kv.2 > acc.1 then (kv.2, kv.1) else acc) (0, (0, 0))

/-- Predecessor traceback (lines 93-101): follow `parent` links, appending the producing
item index at each step, until the current state has no parent entry or a `None` one.
The Python `while` loop does not terminate when the parent links contain a cycle (which
the DP can actually create, e.g. a self-loop at `(0, 0)` from an item whose scaled cost
and weight are both zero); the fuel bound `parent.length + 1` is enough for every acyclic
chain, so `none` is returned exactly when the Python loop diverges. -/
def tracebackAux (parent : List ((ℤ × ℤ) × Option ((ℤ × ℤ) × ℕ))) :
    ℕ → (ℤ × ℤ) → List ℕ → Option (List ℕ)
  | 0, _, _ => none
  | fuel + 1, s, acc =>
    match dictGet? parent s with
    | some (some (ps, i)) => tracebackAux parent fuel ps (acc ++ [i])
    | _ => some acc

/-- Body of the category-limit post-processing loop (lines 106-114): keep the index only
while its (limited) category is below its cap, bumping the running counter on keeps. -/
def filterStep (category_limit : List (String × ℕ)) (items : List Item)
    (acc : List ℕ × List (String × ℕ)) (idx : ℕ) : List ℕ × List (String × ℕ) :=
  let cat := (items.getD idx defaultItem).category
  match dictGet? category_limit cat with
  | some lim =>
    let cur := (dictGet? acc.2 cat).getD 0
    if lim ≤ cur then acc
    else (acc.1 ++ [idx], dictSet acc.2 cat (cur + 1))
  | none => (acc.1 ++ [idx], acc.2)

/-- Category-limit post-processing filter (lines 103-116): walk the traced indices in
order, keeping an item only while its (limited) category is below its cap; the filter runs
only when `category_limit` is truthy. -/
def applyCategoryFilter (category_limit : Option (List (String × ℕ))) (items : List Item)
    (idxs : List ℕ) : List ℕ :=
  if limitsActive category_limit then
    (idxs.foldl (filterStep (category_limit.getD []) items) ([], [])).1
  else idxs

/-- `knapsack_dp` (lines 9-124): scale the bounds, run the DP over all items from the
initial state `(0,0) ↦ 0.0`, pick the best state, trace back the selected item indices,
reverse them, apply the category filter and recompute the totals from the selection.
Returns `none` exactly when the Python traceback loop diverges. -/
def knapsack_dp (items : List Item) (budget max_weight : ℚ)
    (category_limit : Option (List (String × ℕ))) : Option (List Item × ℚ × ℚ × ℚ) :=
  let budget_int := pyInt (budget * 100)
  let max_weight_int := pyInt (max_weight * 100)
  let st := items.enum.foldl (dpStep budget_int max_weight_int) ⟨[((0, 0), 0)], [((0, 0), none)]⟩
  let best := bestState st.dp
  match tracebackAux st.parent (st.parent.length + 1) best.2 [] with
  | none => none
  | some idxs =>
    let selected_indices := (applyCategoryFilter category_limit items idxs.reverse)
    let selected_items := selected_indices.map (fun i => items.getD i defaultItem)
    some (selected_items, sumValue selected_items, sumCost selected_items,
      sumWeight selected_items)

/-! ### solve_packing (src/backend/services/packing_planner.py, lines 15-50) -/

/-- Result record built by `solve_packing` (the `selected_items` / totals / percentage
fields of the returned dict). -/
structure PackingResult where
  selected_items : List Item
  total_value : ℚ
  total_cost : ℚ
  total_weight : ℚ
  budget_used_pct : ℚ
  weight_used_pct : ℚ
  algorithm : String
deriving DecidableEq

/-- `solve_packing`: dispatch on the algorithm string, raising
`ValueError(f"Unknown algorithm: {algorithm}")` on anything other than `"dp"` or
`"greedy"` (modelled as `Except.error` carrying the message).  The outer `Option` is
`none` exactly when the chosen solver (`knapsack_dp`) diverges.  The percentage fields
guard a zero denominator: `(cost / budget * 100) if budget > 0 else 0`. -/
def solve_packing (items : List Item) (budget max_weight : ℚ)
    (category_limit : Option (List (String × ℕ))) (algorithm : String) :
    Option (Except String PackingResult) :=
  if algorithm = "dp" then
    (knapsack_dp items budget max_weight category_limit).map (fun r =>
      Except.ok
        ⟨r.1, r.2.1, r.2.2.1, r.2.2.2,
          if budget > 0 then r.2.2.1 / budget * 100 else 0,
          if max_weight > 0 then r.2.2.2 / max_weight * 100 else 0,
          algorithm⟩)
  else if algorithm = "greedy" then
    let r := knapsack_greedy items budget max_weight category_limit
    some (Except.ok
      ⟨r.1, r.2.1, r.2.2.1, r.2.2.2,
        if budget > 0 then r.2.2.1 / budget * 100 else 0,
        if max_weight > 0 then r.2.2.2 / max_weight * 100 else 0,
        algorithm⟩)
  else some (Except.error ("Unknown algorithm: " ++ algorithm))

/-! ### TSP distance utilities and 2-opt (src/backend/algos/opt/tsp_2opt.py)

The TSP code computes Euclidean distances with `math.sqrt`, so this part of the embedding
lives in `ℝ`; comparisons of real route lengths drive the control flow, which makes these
definitions classically defined rather than executable. -/

open Classical in
/-- `calculate_distance` (lines 9-11): Euclidean distance between two coordinates. -/
noncomputable def calculate_distance (c1 c2 : ℝ × ℝ) : ℝ :=
  Real.sqrt ((c1.1 - c2.1) ^ 2 + (c1.2 - c2.2) ^ 2)

/-- `calculate_route_distance` (lines 14-23): total distance of a route, summing
consecutive-pair distances and wrapping from the last stop back to the first
(`j = (i + 1) % len(route)`); routes shorter than 2 give `0.0`.  Out-of-range indices are
totalized with defaults (`getD`), which is never exercised on permutation routes. -/
noncomputable def calculate_route_distance (route : List ℕ) (coordinates : List (ℝ × ℝ)) : ℝ :=
  if route.length < 2 then 0
  else ((List.range route.length).map (fun i =>
    calculate_distance (coordinates.getD (route.getD i 0) (0, 0))
      (coordinates.getD (route.getD ((i + 1) % route.length) 0) (0, 0)))).sum

/-- `two_opt_swap` (lines 26-29): `route[:i] + route[i:k+1][::-1] + route[k+1:]`. -/
def two_opt_swap (route : List ℕ) (i k : ℕ) : List ℕ :=
  route.take i ++ ((route.drop i).take (k + 1 - i)).reverse ++ route.drop (k + 1)

open Classical in
/-- Inner `for k in range(i + 1, n)` scan of the 2-opt loop (lines 69-77): return the first
swap at this `i` whose route is strictly shorter than `best_distance`. -/
noncomputable def findImproveK (coordinates : List (ℝ × ℝ)) (route : List ℕ)
    (best_distance : ℝ) (i : ℕ) : List ℕ → Option (List ℕ)
  | [] => none
  | k :: ks =>
    let new_route := two_opt_swap route i k
    if calculate_route_distance new_route coordinates < best_distance then some new_route
    else findImproveK coordinates route best_distance i ks

/-- Outer `for i in range(1, n - 1)` scan (lines 67-83): first-improvement search over the
2-opt neighborhood, scanning `i` ascending and `k` ascending from `i + 1`. -/
noncomputable def findImproveI (coordinates : List (ℝ × ℝ)) (route : List ℕ)
    (best_distance : ℝ) : List ℕ → Option (List ℕ)
  | [] => none
  | i :: is' =>
    match findImproveK coordinates route best_distance i
        (List.range' (i + 1) (coordinates.length - (i + 1))) with
    | some r => some r
    | none => findImproveI coordinates route best_distance is'

/-- The `while improved and iterations < max_iterations` loop of `tsp_2opt` (lines 63-84),
with the remaining iteration budget as fuel: each pass scans for the first improving swap;
on success the route, best route and best distance are all replaced by the new route and
the scan restarts, otherwise the loop ends. -/
noncomputable def twoOptLoop (coordinates : List (ℝ × ℝ)) :
    ℕ → List ℕ → List ℕ → ℝ → List ℕ × ℝ
  | 0, _, best_route, best_distance => (best_route, best_distance)
  | fuel + 1, route, best_route, best_distance =>
    match findImproveI coordinates route best_distance
        (List.range' 1 (coordinates.length - 1 - 1)) with
    | some new_route =>
        twoOptLoop coordinates fuel new_route new_route
          (calculate_route_distance new_route coordinates)
    | none => (best_route, best_distance)

/-- `tsp_2opt` (lines 32-84): fewer than 2 coordinates degenerate to
`(list(range(n)), 0.0)`; otherwise start from the supplied route (or the identity
permutation) and run the first-improvement loop up to `max_iterations` passes. -/
noncomputable def tsp_2opt (coordinates : List (ℝ × ℝ)) (initial_route : Option (List ℕ))
    (max_iterations : ℕ) : List ℕ × ℝ :=
  let n := coordinates.length
  if n < 2 then (List.range n, 0)
  else
    let route := initial_route.getD (List.range n)
    twoOptLoop coordinates max_iterations route route
      (calculate_route_distance route coordinates)

/-! ### Simulated annealing (src/backend/algos/meta/simulated_annealing.py, lines 16-79)

Randomness is modelled by two injectable streams, `nrand` for the integer draws backing
`random.randint` / `random.shuffle` and `urand` for the uniform `random.random()` draws,
with a single draw counter threaded through the loop. -/

/-- `random.randint(lo, hi)`: uniform integer in `[lo, hi]`; raises `ValueError` when the
range is empty (`lo > hi`), modelled as `none`.  The supplied raw draw is reduced into the
range by a modulus, which preserves exactly the success/failure behaviour and the
`lo ≤ result ≤ hi` guarantee of the library call. -/
def randint (lo hi : ℕ) (draw : ℕ) : Option ℕ :=
  if hi < lo then none else some (lo + draw % (hi - lo + 1))

/-- Swap of the entries at positions `i` and `j` of a list. -/
def swapAt (l : List ℕ) (i j : ℕ) : List ℕ :=
  (l.set i (l.getD j 0)).set j (l.getD i 0)

/-- Fisher-Yates shuffle as in CPython's `random.shuffle`: for `i` from `n - 1` down to
`1`, draw `j` in `[0, i]` and swap positions `i` and `j`.  The first argument of the
recursion is the current position `i` (and recursion fuel); the call sites start it at
`length - 1`. -/
def pythonShuffle (nrand : ℕ → ℕ) (t0 : ℕ) : ℕ → List ℕ → List ℕ
  | 0, l => l
  | i + 1, l => pythonShuffle nrand (t0 + 1) i (swapAt l (i + 1) (nrand t0 % (i + 2)))


open Classical in
/-- The `while temp > min_temp and iterations < max_iterations` loop of
`tsp_simulated_annealing` (lines 56-76), with the remaining iteration budget as fuel and
the draw counter `t` threaded through.  Each iteration draws the cut points
`i = random.randint(1, n - 2)` and `k = random.randint(i + 1, n - 1)` (either draw may
raise, giving `none`), builds the 2-opt neighbor, accepts it when `delta < 0` or with the
Metropolis test `random.random() < exp(-delta / temp)`, updates the best-ever pair on
strict improvement inside the acceptance branch, and multiplies the temperature by
`cooling_rate`. -/
noncomputable def saLoop (coordinates : List (ℝ × ℝ)) (nrand : ℕ → ℕ) (urand : ℕ → ℝ)
    (cooling_rate min_temp : ℝ) :
    ℕ → ℕ → List ℕ → ℝ → List ℕ → ℝ → ℝ → Option (List ℕ × ℝ)
  | 0, _, _, _, best_route, best_distance, _ => some (best_route, best_distance)
  | fuel + 1, t, route, current_distance, best_route, best_distance, temp =>
    if temp > min_temp then
      match randint 1 (coordinates.length - 2) (nrand t) with
      | none => none
      | some i =>
        match randint (i + 1) (coordinates.length - 1) (nrand (t + 1)) with
        | none => none
        | some k =>
          let new_route := two_opt_swap route i k
          let new_distance := calculate_route_distance new_route coordinates
          let delta := new_distance - current_distance
          if delta < 0 ∨ urand (t + 2) < Real.exp (-delta / temp) then
            saLoop coordinates nrand urand cooling_rate min_temp fuel (t + 3)
              new_route new_distance
              (if new_distance < best_distance then new_route else best_route)
              (if new_distance < best_distance then new_distance else best_distance)
              (temp * cooling_rate)
          else
            saLoop coordinates nrand urand cooling_rate min_temp fuel (t + 3)
              route current_distance best_route best_distance (temp * cooling_rate)
    else some (best_route, best_distance)

/-- `tsp_simulated_annealing` (lines 16-79): fewer than 2 coordinates degenerate to
`(list(range(n)), 0.0)`; otherwise start from the supplied route (or a shuffled identity
permutation), and run the annealing loop.  `none` models the `ValueError` raised by an
empty `randint` range (which happens on every iteration when `n == 2`). -/
noncomputable def tsp_simulated_annealing (coordinates : List (ℝ × ℝ))
    (initial_route : Option (List ℕ)) (initial_temp cooling_rate min_temp : ℝ)
    (max_iterations : ℕ) (nrand : ℕ → ℕ) (urand : ℕ → ℝ) : Option (List ℕ × ℝ) :=
  let n := coordinates.length
  if n < 2 then some (List.range n, 0)
  else
    let route := match initial_route with
      | none => pythonShuffle nrand 0 (n - 1) (List.range n)
      | some r => r
    let best_distance := calculate_route_distance route coordinates
    saLoop coordinates nrand urand cooling_rate min_temp max_iterations
      (match initial_route with | none => n - 1 | some _ => 0)
      route best_distance route best_distance initial_temp

/-! ### solve_route (src/backend/services/route_planner.py, lines 30-107)

The service geocodes addresses with a hash-based placeholder; the spec treats geocoding as
an opaque external function `address -> (x, y)`, so the embedding takes it as a parameter.
The display-only `route_stops` list of the returned dict (names/addresses/hours copied
from the request) is elided; the record keeps the algorithmically produced fields
`route_order`, `total_distance` and `algorithm`. -/

/-- Algorithmic payload of the dict returned by `solve_route`. -/
structure RouteResult where
  route_order : List ℕ
  total_distance : ℝ
  algorithm : String

open Classical in
/-- `solve_route`: geocode home and stops (home is index 0), return the degenerate
single-point result when fewer than 2 coordinates, otherwise dispatch on the algorithm
string — raising `ValueError(f"Unknown algorithm: {algorithm}")` for anything other than
`"2opt"` and `"simulated_annealing"` — then rotate the route to start at home and append
the return leg home when missing.  The outer `Option` is `none` when the chosen solver
raises (simulated annealing on an empty `randint` range). -/
noncomputable def solve_route (geocode : String → ℝ × ℝ) (home : String)
    (stops : List String) (algorithm : String) (nrand : ℕ → ℕ) (urand : ℕ → ℝ) :
    Option (Except String RouteResult) :=
  let all_coords := geocode home :: stops.map geocode
  let n := all_coords.length
  if n < 2 then some (Except.ok ⟨[0], 0, algorithm⟩)
  else
    let solved : Option (Except String (List ℕ × ℝ)) :=
      if algorithm = "2opt" then some (Except.ok (tsp_2opt all_coords none 1000))
      else if algorithm = "simulated_annealing" then
        (tsp_simulated_annealing all_coords none 1000 (995 / 1000) (1 / 10) 10000
          nrand urand).map Except.ok
      else some (Except.error ("Unknown algorithm: " ++ algorithm))
    solved.map (fun res => res.map (fun rd : List ℕ × ℝ =>
      let route0 : List ℕ := rd.1
      let route1 : List ℕ :=
        if route0.getD 0 0 ≠ 0 then
          let start_idx := route0.indexOf 0
          route0.drop start_idx ++ route0.take start_idx
        else route0
      if route1.getLast? ≠ some 0 then
        ⟨route1 ++ [0],
          rd.2 + calculate_distance (all_coords.getD (route1.getD (route1.length - 1) 0) (0, 0))
            (all_coords.getD 0 (0, 0)),
          algorithm⟩
      else ⟨route1, rd.2, algorithm⟩))

/-! ## Claims -/

/-- C2: the spec claims that iterating over a snapshot of the pre-item states preserves
the 0/1 property (each item contributes at most once to the returned selection).  The code
contradicts this — and its own comment "Iterate through all current states ... to avoid
using same item twice": it snapshots the *keys* but reads the *current* values, so a state
updated by the item currently being processed can be used as the source of a further
transition of the same item.  On items `[(value 5, cost 1, weight 1), (value 10, cost 1,
weight 1)]` with `budget = 2`, `max_weight = 2`, the returned selection contains the
second item twice (total value 20, above the true optimum 15). -/
theorem claim_C2_code_bug :
    knapsack_dp [⟨5, 1, 1, ""⟩, ⟨10, 1, 1, ""⟩] 2 2 none =
      some ([⟨10, 1, 1, ""⟩, ⟨10, 1, 1, ""⟩], 20, 2, 2) := by
  norm_num [knapsack_dp, dpStep, dpInner, dictGet?, dictSet, bestState, tracebackAux,
    applyCategoryFilter, filterStep, defaultItem, pyInt, centScale, sumValue, sumCost,
    sumWeight, limitsActive, List.enum, List.enumFrom, Prod.mk.injEq, -Prod.mk_zero_zero]

/-- C7: `knapsack_greedy` and `knapsack_dp` are deterministic — re-running either solver
on identical input yields identical output.  In this embedding both are pure functions
taking no randomness source (unlike `tsp_simulated_annealing`, which needs injected random
streams), so two runs on the same input are the same term. -/
theorem claim_C7 (items : List Item) (budget max_weight : ℚ)
    (category_limit : Option (List (String × ℕ))) :
    knapsack_greedy items budget max_weight category_limit =
      knapsack_greedy items budget max_weight category_limit ∧
    knapsack_dp items budget max_weight category_limit =
      knapsack_dp items budget max_weight category_limit :=
  ⟨rfl, rfl⟩

/-- C6: with a supplied initial route, at least two coordinates and
`min_temp ≥ initial_temp` (in particular `initial_temp = 0.0` against the default
`min_temp = 0.1`), the annealing loop `while temp > min_temp and ...` runs zero iterations
and `tsp_simulated_annealing` returns the initial route unchanged with its length. -/
theorem claim_C6 (coordinates : List (ℝ × ℝ)) (r : List ℕ)
    (initial_temp cooling_rate min_temp : ℝ) (max_iterations : ℕ)
    (nrand : ℕ → ℕ) (urand : ℕ → ℝ)
    (hn : 2 ≤ coordinates.length) (ht : min_temp ≥ initial_temp) :
    tsp_simulated_annealing coordinates (some r) initial_temp cooling_rate min_temp
        max_iterations nrand urand =
      some (r, calculate_route_distance r coordinates) := by
  unfold tsp_simulated_annealing
  rw [if_neg (by omega)]
  cases max_iterations with
  | zero => rfl
  | succ m =>
    show saLoop _ _ _ _ _ _ _ _ _ _ _ _ = _
    rw [saLoop, if_neg (not_lt.2 ht)]

/-- Witness for C6 at a concrete instance. -/
theorem claim_C6_witness :
    tsp_simulated_annealing [(0, 0), (1, 0)] (some [0, 1]) 0 (995 / 1000) (1 / 10) 5
        (fun _ => 0) (fun _ => 0) =
      some ([0, 1], calculate_route_distance [0, 1] [(0, 0), (1, 0)]) :=
  claim_C6 [(0, 0), (1, 0)] [0, 1] 0 (995 / 1000) (1 / 10) 5 (fun _ => 0) (fun _ => 0)
    (by simp) (by norm_num)

/-- C10: on exactly 2 coordinates, with `initial_temp > min_temp` and at least one
iteration allowed, the first iteration draws `i = random.randint(1, n - 2) =
random.randint(1, 0)` from an empty range, which raises `ValueError`: the call never
returns a result (modelled as `none`), even though `n = 2` passes the `n < 2`
degenerate-input check. -/
theorem claim_C10 (coordinates : List (ℝ × ℝ)) (initial_route : Option (List ℕ))
    (initial_temp cooling_rate min_temp : ℝ) (max_iterations : ℕ)
    (nrand : ℕ → ℕ) (urand : ℕ → ℝ)
    (hn : coordinates.length = 2) (ht : initial_temp > min_temp)
    (hm : 1 ≤ max_iterations) :
    tsp_simulated_annealing coordinates initial_route initial_temp cooling_rate min_temp
        max_iterations nrand urand = none := by
  obtain ⟨m, rfl⟩ : ∃ m, max_iterations = m + 1 := ⟨max_iterations - 1, by omega⟩
  unfold tsp_simulated_annealing
  rw [if_neg (by omega)]
  show saLoop _ _ _ _ _ _ _ _ _ _ _ _ = _
  rw [saLoop, if_pos ht, hn]
  rfl

/-- Witness for C10 at a concrete instance. -/
theorem claim_C10_witness :
    tsp_simulated_annealing [(0, 0), (3, 4)] none 1000 (995 / 1000) (1 / 10) 10000
        (fun _ => 0) (fun _ => 0) = none :=
  claim_C10 [(0, 0), (3, 4)] none 1000 (995 / 1000) (1 / 10) 10000 (fun _ => 0)
    (fun _ => 0) (by simp) (by norm_num) (by norm_num)

/-- C9: the greedy ratio key is `0` whenever `cost == 0` (so the `value / cost` division
is guarded), and `solve_packing` reports `budget_used_pct = 0` when `budget = 0` and
`weight_used_pct = 0` when `max_weight = 0` — the division-by-zero branches are
unreachable. -/
theorem claim_C9 :
    (∀ it : Item, it.cost = 0 → ratioKey it = 0) ∧
    (∀ items category_limit algorithm max_weight r,
        solve_packing items 0 max_weight category_limit algorithm = some (Except.ok r) →
        r.budget_used_pct = 0) ∧
    (∀ items category_limit algorithm budget r,
        solve_packing items budget 0 category_limit algorithm = some (Except.ok r) →
        r.weight_used_pct = 0) := by
  refine ⟨fun it h => by simp [ratioKey, h], ?_, ?_⟩
  · intro items category_limit algorithm max_weight r h
    unfold solve_packing at h
    split at h
    · obtain ⟨p, hp, hr⟩ := Option.map_eq_some'.1 h
      cases hr
      rename_i heq
      cases heq
      simp
    · split at h
      · cases h
        rename_i heq
        cases heq
        simp
      · exact absurd (Option.some.inj h) (by simp)
  · intro items category_limit algorithm budget r h
    unfold solve_packing at h
    split at h
    · obtain ⟨p, hp, hr⟩ := Option.map_eq_some'.1 h
      cases hr
      rename_i heq
      cases heq
      simp
    · split at h
      · cases h
        rename_i heq
        cases heq
        simp
      · exact absurd (Option.some.inj h) (by simp)

/-- Witness for C9 at concrete inputs. -/
theorem claim_C9_witness :
    ratioKey ⟨1, 0, 0, ""⟩ = 0 ∧
    PackingResult.budget_used_pct ⟨[], 0, 0, 0, 0, 0, "greedy"⟩ = 0 ∧
    PackingResult.weight_used_pct ⟨[], 0, 0, 0, 0, 0, "greedy"⟩ = 0 :=
  ⟨claim_C9.1 ⟨1, 0, 0, ""⟩ rfl,
   claim_C9.2.1 [] none "greedy" 0 ⟨[], 0, 0, 0, 0, 0, "greedy"⟩
     (by rw [solve_packing, if_neg (by decide), if_pos rfl]
         norm_num [knapsack_greedy, List.mergeSort]),
   claim_C9.2.2 [] none "greedy" 0 ⟨[], 0, 0, 0, 0, 0, "greedy"⟩
     (by rw [solve_packing, if_neg (by decide), if_pos rfl]
         norm_num [knapsack_greedy, List.mergeSort])⟩

/-- C8 counterexample: the claim quantifies over *every* unsupported selector string, but
`solve_route` checks the degenerate-input condition before dispatching: with zero stops
(`n = 1 < 2`) it returns the single-point result without ever looking at the algorithm
string, so the unsupported selector `"bogus"` does not fail there. -/
theorem claim_C8_counterexample :
    ("bogus" ≠ "2opt" ∧ "bogus" ≠ "simulated_annealing") ∧
    solve_route (fun _ => (0, 0)) "home" [] "bogus" (fun _ => 0) (fun _ => 0) =
      some (Except.ok ⟨[0], 0, "bogus"⟩) :=
  ⟨⟨by decide, by decide⟩, by rw [solve_route]; rfl⟩

/-- C8 amended: `solve_packing` fails with `ValueError: Unknown algorithm: <name>` on
every selector other than `"dp"` / `"greedy"`; `solve_route` does so on every selector
other than `"2opt"` / `"simulated_annealing"` *provided at least one stop is supplied*
(with zero stops the degenerate-input early return bypasses the dispatch); no partial
result accompanies the error, and supported selectors do not produce this error. -/
theorem claim_C8_amended :
    (∀ items budget max_weight category_limit algorithm,
      algorithm ≠ "dp" → algorithm ≠ "greedy" →
      solve_packing items budget max_weight category_limit algorithm =
        some (Except.error ("Unknown algorithm: " ++ algorithm))) ∧
    (∀ geocode home stops algorithm nrand urand,
      algorithm ≠ "2opt" → algorithm ≠ "simulated_annealing" → stops ≠ [] →
      solve_route geocode home stops algorithm nrand urand =
        some (Except.error ("Unknown algorithm: " ++ algorithm))) ∧
    (∃ r, solve_packing [] 0 0 none "greedy" = some (Except.ok r)) ∧
    (∃ r, solve_route (fun _ => (0, 0)) "home" ["stop"] "2opt" (fun _ => 0) (fun _ => 0) =
      some (Except.ok r)) := by
  refine ⟨?_, ?_, ?_, ?_⟩
  · intro items budget max_weight category_limit algorithm h1 h2
    rw [solve_packing, if_neg h1, if_neg h2]
  · intro geocode home stops algorithm nrand urand h1 h2 h3
    have hlen : ¬ ((geocode home :: stops.map geocode).length < 2) := by
      rcases stops with _ | ⟨s, rest⟩
      · exact absurd rfl h3
      · simp
    rw [solve_route, if_neg hlen, if_neg h1, if_neg h2]
    rfl
  · exact ⟨_, by rw [solve_packing, if_neg (by decide), if_pos rfl]⟩
  · exact ⟨_, by rw [solve_route]; rfl⟩

/-- Witness for C8 (amended) at concrete inputs. -/
theorem claim_C8_witness :
    solve_packing [] 0 0 none "nope" =
      some (Except.error ("Unknown algorithm: " ++ "nope")) ∧
    solve_route (fun _ => (0, 0)) "home" ["stop"] "nope" (fun _ => 0) (fun _ => 0) =
      some (Except.error ("Unknown algorithm: " ++ "nope")) :=
  ⟨claim_C8_amended.1 [] 0 0 none "nope" (by decide) (by decide),
   claim_C8_amended.2.1 (fun _ => (0, 0)) "home" ["stop"] "nope" (fun _ => 0) (fun _ => 0)
     (by decide) (by decide) (by decide)⟩

/-! ### Helper lemmas for the TSP claims -/

/-- Route lengths are sums of square roots, hence nonnegative. -/
theorem calculate_route_distance_nonneg (route : List ℕ) (coordinates : List (ℝ × ℝ)) :
    0 ≤ calculate_route_distance route coordinates := by
  rw [calculate_route_distance]
  split
  · exact le_refl 0
  · refine List.sum_nonneg ?_
    intro x hx
    obtain ⟨i, -, rfl⟩ := List.mem_map.1 hx
    exact Real.sqrt_nonneg _

/-- A route returned by the inner `k` scan is strictly shorter than the current best. -/
theorem findImproveK_lt (coordinates : List (ℝ × ℝ)) (route : List ℕ) (best : ℝ) (i : ℕ)
    (ks : List ℕ) (r : List ℕ) (h : findImproveK coordinates route best i ks = some r) :
    calculate_route_distance r coordinates < best := by
  induction ks with
  | nil => exact absurd h (by rw [findImproveK]; exact Option.noConfusion)
  | cons k ks ih =>
    rw [findImproveK] at h
    split at h
    · cases h
      assumption
    · exact ih h

/-- A route returned by the full first-improvement scan is strictly shorter than the
current best. -/
theorem findImproveI_lt (coordinates : List (ℝ × ℝ)) (route : List ℕ) (best : ℝ)
    (is' : List ℕ) (r : List ℕ) (h : findImproveI coordinates route best is' = some r) :
    calculate_route_distance r coordinates < best := by
  induction is' with
  | nil => exact absurd h (by rw [findImproveI]; exact Option.noConfusion)
  | cons i is' ih =>
    rw [findImproveI] at h
    rcases hfk : findImproveK coordinates route best i
        (List.range' (i + 1) (coordinates.length - (i + 1))) with _ | r'
    · rw [hfk] at h
      exact ih h
    · rw [hfk] at h
      cases h
      exact findImproveK_lt _ _ _ _ _ _ hfk

/-- The tracked best distance of the 2-opt loop never increases: the final best distance
is at most the best distance the loop started from. -/
theorem twoOptLoop_snd_le (coordinates : List (ℝ × ℝ)) :
    ∀ (fuel : ℕ) (route best_route : List ℕ) (best_distance : ℝ),
      (twoOptLoop coordinates fuel route best_route best_distance).2 ≤ best_distance := by
  intro fuel
  induction fuel with
  | zero => intro route br bd; exact le_refl bd
  | succ f ih =>
    intro route br bd
    rw [twoOptLoop]
    rcases hfi : findImproveI coordinates route bd
        (List.range' 1 (coordinates.length - 1 - 1)) with _ | nr
    · exact le_refl bd
    · exact le_trans (ih nr nr (calculate_route_distance nr coordinates))
        (le_of_lt (findImproveI_lt _ _ _ _ _ hfi))

/-- C4: for every coordinate list, iteration bound and initial route that is a permutation
of `0..n-1` (the identity when none is supplied), the distance returned by `tsp_2opt` is
at most the length of the initial route; moreover the tracked best length of the internal
loop never increases across accepted improvements (the loop's result is bounded by
whatever best distance it starts from). -/
theorem claim_C4 (coordinates : List (ℝ × ℝ)) (initial_route : Option (List ℕ))
    (max_iterations : ℕ)
    (hperm : (initial_route.getD (List.range coordinates.length)).Perm
      (List.range coordinates.length)) :
    (tsp_2opt coordinates initial_route max_iterations).2 ≤
      calculate_route_distance (initial_route.getD (List.range coordinates.length))
        coordinates ∧
    ∀ fuel route best_route best_distance,
      (twoOptLoop coordinates fuel route best_route best_distance).2 ≤ best_distance := by
  refine ⟨?_, fun fuel route br bd => twoOptLoop_snd_le coordinates fuel route br bd⟩
  rw [tsp_2opt]
  split
  · exact calculate_route_distance_nonneg _ _
  · exact twoOptLoop_snd_le coordinates max_iterations _ _ _

/-- Witness for C4 at a concrete instance. -/
theorem claim_C4_witness :
    (tsp_2opt [(0, 0), (3, 4)] (some [1, 0]) 7).2 ≤
      calculate_route_distance ((some [1, 0]).getD (List.range 2)) [(0, 0), (3, 4)] :=
  (claim_C4 [(0, 0), (3, 4)] (some [1, 0]) 7 (by decide)).1

/-- Euclidean distance is symmetric. -/
theorem calculate_distance_symm (a b : ℝ × ℝ) :
    calculate_distance a b = calculate_distance b a := by
  rw [calculate_distance, calculate_distance]
  congr 1
  ring

/-- Sums over `List.range` are `Finset.range` sums. -/
theorem list_range_map_sum (n : ℕ) (f : ℕ → ℝ) :
    ((List.range n).map f).sum = ∑ i in Finset.range n, f i := rfl

/-- Indexing a rotated list. -/
theorem getD_rotate (l : List ℕ) (j a : ℕ) (ha : a < l.length) :
    (l.rotate j).getD a 0 = l.getD ((a + j) % l.length) 0 := by
  have h1 : a < (l.rotate j).length := by rw [List.length_rotate]; exact ha
  have h2 : (a + j) % l.length < l.length := Nat.mod_lt _ (by omega)
  rw [List.getD_eq_getElem _ _ h1, List.getD_eq_getElem _ _ h2]
  have hg := List.get_rotate l j ⟨a, h1⟩
  simpa [List.get_eq_getElem] using hg

/-- Indexing a reversed list. -/
theorem getD_reverse (l : List ℕ) (a : ℕ) (ha : a < l.length) :
    l.reverse.getD a 0 = l.getD (l.length - 1 - a) 0 := by
  have h1 : a < l.reverse.length := by rw [List.length_reverse]; exact ha
  rw [List.getD_eq_getElem _ _ h1, List.getD_eq_getElem _ _ (by omega)]
  exact List.getElem_reverse _

/-- Route length is invariant under cyclic rotation (for arbitrary routes). -/
theorem calculate_route_distance_rotate (route : List ℕ) (coordinates : List (ℝ × ℝ))
    (j : ℕ) :
    calculate_route_distance (route.rotate j) coordinates =
      calculate_route_distance route coordinates := by
  rcases Nat.lt_or_ge route.length 2 with h2 | h2
  · rcases route with _ | ⟨a, _ | ⟨b, t⟩⟩
    · rw [List.rotate_nil]
    · rw [List.rotate_singleton]
    · simp only [List.length_cons] at h2; omega
  · have hm0 : 0 < route.length := by omega
    have hjm : j % route.length < route.length := Nat.mod_lt _ hm0
    have hlr : (route.rotate (j % route.length)).length = route.length :=
      List.length_rotate _ _
    rw [← List.rotate_mod, calculate_route_distance, calculate_route_distance,
      if_neg (by rw [hlr]; omega), if_neg (by omega)]
    simp only [hlr, list_range_map_sum]
    refine Finset.sum_nbij'
      (fun a => (a + j % route.length) % route.length)
      (fun a => (a + (route.length - j % route.length)) % route.length)
      ?_ ?_ ?_ ?_ ?_
    · intro a ha
      simp only [Finset.mem_range] at *
      exact Nat.mod_lt _ hm0
    · intro a ha
      simp only [Finset.mem_range] at *
      exact Nat.mod_lt _ hm0
    · intro a ha
      simp only [Finset.mem_range] at ha
      show ((a + j % route.length) % route.length +
        (route.length - j % route.length)) % route.length = a
      rw [Nat.mod_add_mod]
      have he : a + j % route.length + (route.length - j % route.length) =
          a + route.length := by omega
      rw [he, Nat.add_mod_right]
      exact Nat.mod_eq_of_lt ha
    · intro a ha
      simp only [Finset.mem_range] at ha
      show ((a + (route.length - j % route.length)) % route.length +
        j % route.length) % route.length = a
      rw [Nat.mod_add_mod]
      have he : a + (route.length - j % route.length) + j % route.length =
          a + route.length := by omega
      rw [he, Nat.add_mod_right]
      exact Nat.mod_eq_of_lt ha
    · intro a ha
      simp only [Finset.mem_range] at ha
      simp only []
      rw [getD_rotate _ _ _ ha, getD_rotate _ _ _ (Nat.mod_lt _ hm0)]
      have he : ((a + 1) % route.length + j % route.length) % route.length =
          ((a + j % route.length) % route.length + 1) % route.length := by
        rw [Nat.mod_add_mod, Nat.mod_add_mod, Nat.add_right_comm]
      rw [he]

/-- Route length is invariant under full reversal (for arbitrary routes). -/
theorem calculate_route_distance_reverse (route : List ℕ) (coordinates : List (ℝ × ℝ)) :
    calculate_route_distance route.reverse coordinates =
      calculate_route_distance route coordinates := by
  rcases Nat.lt_or_ge route.length 2 with h2 | h2
  · rcases route with _ | ⟨a, _ | ⟨b, t⟩⟩
    · rw [List.reverse_nil]
    · rw [List.reverse_singleton]
    · simp only [List.length_cons] at h2; omega
  · have hm0 : 0 < route.length := by omega
    have hlr : route.reverse.length = route.length := List.length_reverse _
    rw [calculate_route_distance, calculate_route_distance,
      if_neg (by rw [hlr]; omega), if_neg (by omega)]
    simp only [hlr, list_range_map_sum]
    refine Finset.sum_nbij'
      (fun a => if a = route.length - 1 then route.length - 1 else route.length - 2 - a)
      (fun a => if a = route.length - 1 then route.length - 1 else route.length - 2 - a)
      ?_ ?_ ?_ ?_ ?_
    · intro a ha
      simp only [Finset.mem_range] at *
      split <;> omega
    · intro a ha
      simp only [Finset.mem_range] at *
      split <;> omega
    · intro a ha
      simp only [Finset.mem_range] at ha
      simp only []
      by_cases h : a = route.length - 1
      · rw [if_pos h, h, if_pos rfl]
      · rw [if_neg h, if_neg (by omega)]
        omega
    · intro a ha
      simp only [Finset.mem_range] at ha
      simp only []
      by_cases h : a = route.length - 1
      · rw [if_pos h, h, if_pos rfl]
      · rw [if_neg h, if_neg (by omega)]
        omega
    · intro a ha
      simp only [Finset.mem_range] at ha
      simp only []
      by_cases h : a = route.length - 1
      · rw [if_pos h, h]
        have ha1 : (route.length - 1 + 1) % route.length = 0 := by
          have hh : route.length - 1 + 1 = route.length := by omega
          rw [hh, Nat.mod_self]
        rw [ha1, getD_reverse _ _ (by omega), getD_reverse _ _ (by omega)]
        have hz : route.length - 1 - (route.length - 1) = 0 := by omega
        have hz2 : route.length - 1 - 0 = route.length - 1 := by omega
        rw [hz, hz2]
        exact calculate_distance_symm _ _
      · rw [if_neg h]
        have haux : a + 1 < route.length := by omega
        have ha1 : (a + 1) % route.length = a + 1 := Nat.mod_eq_of_lt haux
        rw [ha1, getD_reverse _ _ (by omega), getD_reverse _ _ haux]
        have he1 : route.length - 1 - (a + 1) = route.length - 2 - a := by omega
        have he2 : (route.length - 2 - a + 1) % route.length = route.length - 1 - a := by
          have : route.length - 2 - a + 1 = route.length - 1 - a := by omega
          rw [this]
          exact Nat.mod_eq_of_lt (by omega)
        rw [he1, he2]
        exact calculate_distance_symm _ _

/-- C5: for every permutation route, the route length is invariant under every cyclic
rotation and under full reversal (the distance metric is symmetric and the length is a
cyclic sum). -/
theorem claim_C5 (route : List ℕ) (coordinates : List (ℝ × ℝ)) (j : ℕ)
    (hperm : route.Perm (List.range coordinates.length)) :
    calculate_route_distance (route.rotate j) coordinates =
      calculate_route_distance route coordinates ∧
    calculate_route_distance route.reverse coordinates =
      calculate_route_distance route coordinates :=
  ⟨calculate_route_distance_rotate route coordinates j,
   calculate_route_distance_reverse route coordinates⟩

/-- Witness for C5 at a concrete instance. -/
theorem claim_C5_witness :
    calculate_route_distance ([1, 0, 2].rotate 1) [(0, 0), (3, 4), (1, 1)] =
      calculate_route_distance [1, 0, 2] [(0, 0), (3, 4), (1, 1)] ∧
    calculate_route_distance [1, 0, 2].reverse [(0, 0), (3, 4), (1, 1)] =
      calculate_route_distance [1, 0, 2] [(0, 0), (3, 4), (1, 1)] :=
  claim_C5 [1, 0, 2] [(0, 0), (3, 4), (1, 1)] 1 (by decide)

/-! ### Helper lemmas for the knapsack claims: dictionaries -/

/-- Updating a key and reading it back. -/
theorem dictGet?_dictSet_self {K V : Type} [DecidableEq K] (m : List (K × V)) (k : K)
    (v : V) : dictGet? (dictSet m k v) k = some v := by
  induction m with
  | nil => simp [dictSet, dictGet?]
  | cons kv rest ih =>
    rw [dictSet]
    split
    · rw [dictGet?]
      simp_all
    · rw [dictGet?]
      split
      · simp_all
      · exact ih

/-- Updating one key leaves the others unchanged. -/
theorem dictGet?_dictSet_ne {K V : Type} [DecidableEq K] (m : List (K × V)) (k k' : K)
    (v : V) (h : k ≠ k') : dictGet? (dictSet m k v) k' = dictGet? m k' := by
  induction m with
  | nil => simp [dictSet, dictGet?, h]
  | cons kv rest ih =>
    rw [dictSet]
    split
    · rw [dictGet?, dictGet?]
      split
      · simp_all
      · rfl
    · rw [dictGet?, dictGet?]
      split
      · rfl
      · exact ih

/-- A successful lookup returns an actual entry of the list. -/
theorem dictGet?_mem {K V : Type} [DecidableEq K] (m : List (K × V)) (k : K) (v : V)
    (h : dictGet? m k = some v) : (k, v) ∈ m := by
  induction m with
  | nil => exact absurd h (by rw [dictGet?]; exact Option.noConfusion)
  | cons kv rest ih =>
    rw [dictGet?] at h
    split at h
    · rename_i hk
      cases h
      have hkv : (k, kv.2) = kv := Prod.ext hk.symm rfl
      rw [hkv]
      exact List.mem_cons_self _ _
    · exact List.mem_cons_of_mem _ (ih h)

/-- A key present in the list has a successful lookup. -/
theorem dictGet?_isSome_of_mem {K V : Type} [DecidableEq K] (m : List (K × V)) (k : K)
    (h : k ∈ m.map Prod.fst) : ∃ v, dictGet? m k = some v := by
  induction m with
  | nil => simp at h
  | cons kv rest ih =>
    rw [dictGet?]
    split
    · exact ⟨kv.2, rfl⟩
    · refine ih ?_
      simp only [List.map_cons, List.mem_cons] at h
      rcases h with h | h
      · exact absurd h.symm (by assumption)
      · exact h

/-- A successful lookup means the key is present. -/
theorem mem_keys_of_dictGet? {K V : Type} [DecidableEq K] (m : List (K × V)) (k : K)
    (v : V) (h : dictGet? m k = some v) : k ∈ m.map Prod.fst := by
  have := dictGet?_mem m k v h
  exact List.mem_map.2 ⟨(k, v), this, rfl⟩

/-- Key membership after an update. -/
theorem mem_keys_dictSet {K V : Type} [DecidableEq K] (m : List (K × V)) (k k' : K)
    (v : V) : k' ∈ (dictSet m k v).map Prod.fst ↔ k' ∈ m.map Prod.fst ∨ k' = k := by
  induction m with
  | nil => simp [dictSet]
  | cons kv rest ih =>
    rw [dictSet]
    split
    · rename_i hk
      simp only [List.map_cons, List.mem_cons]
      constructor
      · rintro (h | h)
        · exact Or.inl (Or.inl h)
        · exact Or.inl (Or.inr h)
      · rintro ((h | h) | h)
        · exact Or.inl h
        · exact Or.inr h
        · exact Or.inl (by rw [h, ← hk])
    · simp only [List.map_cons, List.mem_cons, ih]
      tauto

/-- Every entry after an update is the new pair or an old entry. -/
theorem mem_of_mem_dictSet {K V : Type} [DecidableEq K] (m : List (K × V)) (k : K)
    (v : V) (kv : K × V) (h : kv ∈ dictSet m k v) : kv = (k, v) ∨ kv ∈ m := by
  induction m with
  | nil => simpa [dictSet] using h
  | cons kv' rest ih =>
    rw [dictSet] at h
    split at h
    · rename_i hk
      rcases List.mem_cons.1 h with h | h
      · left
        rw [h, hk]
      · exact Or.inr (List.mem_cons_of_mem _ h)
    · rcases List.mem_cons.1 h with h | h
      · exact Or.inr (List.mem_cons.2 (Or.inl h))
      · rcases ih h with h | h
        · exact Or.inl h
        · exact Or.inr (List.mem_cons_of_mem _ h)

/-- Updating preserves distinctness of the keys. -/
theorem dictSet_keys_nodup {K V : Type} [DecidableEq K] (m : List (K × V)) (k : K)
    (v : V) (h : (m.map Prod.fst).Nodup) : ((dictSet m k v).map Prod.fst).Nodup := by
  induction m with
  | nil => simp [dictSet]
  | cons kv rest ih =>
    rw [dictSet]
    split
    · exact h
    · rename_i hk
      simp only [List.map_cons, List.nodup_cons] at h ⊢
      refine ⟨fun hmem => ?_, ih h.2⟩
      rcases (mem_keys_dictSet rest k kv.1 v).1 hmem with hm | hm
      · exact h.1 hm
      · exact hk hm

/-- With distinct keys, every entry is found by lookup. -/
theorem dictGet?_of_mem_nodup {K V : Type} [DecidableEq K] (m : List (K × V)) (k : K)
    (v : V) (hnd : (m.map Prod.fst).Nodup) (h : (k, v) ∈ m) : dictGet? m k = some v := by
  induction m with
  | nil => simp at h
  | cons kv rest ih =>
    simp only [List.map_cons, List.nodup_cons] at hnd
    rw [dictGet?]
    rcases List.mem_cons.1 h with h | h
    · rw [if_pos (by rw [← h])]
      rw [← h]
    · rw [if_neg ?_]
      · exact ih hnd.2 h
      · intro hk
        exact hnd.1 (by rw [hk]; exact List.mem_map.2 ⟨(k, v), h, rfl⟩)

/-- A nonempty dict is truthy. -/
theorem limitsActive_of_lookup (m : List (String × ℕ)) (cat : String) (lim : ℕ)
    (h : dictGet? m cat = some lim) : limitsActive (some m) = true := by
  cases m with
  | nil => exact absurd h (by rw [dictGet?]; exact Option.noConfusion)
  | cons kv rest => rfl

/-! ### Helper lemmas for the knapsack claims: the greedy pass -/

/-- Invariant carried through the greedy selection loop: the running totals agree with the
recomputed sums of the selection, the budget / weight bounds hold, the per-category
counters agree with the selection counts for every nonempty category, and all nonempty
limited categories respect their caps. -/
structure GreedyInv (budget max_weight : ℚ) (category_limit : Option (List (String × ℕ)))
    (acc : GreedyAcc) : Prop where
  cost_eq : acc.total_cost = sumCost acc.selected
  weight_eq : acc.total_weight = sumWeight acc.selected
  value_eq : acc.total_value = sumValue acc.selected
  cost_le : acc.total_cost ≤ budget
  weight_le : acc.total_weight ≤ max_weight
  counts_eq : ∀ cat, cat ≠ "" →
    (dictGet? acc.category_counts cat).getD 0 = countCat acc.selected cat
  caps : ∀ m cat lim, category_limit = some m → dictGet? m cat = some lim → cat ≠ "" →
    countCat acc.selected cat ≤ lim

/-- Count of a category over an extended selection. -/
theorem countCat_append (l : List Item) (item : Item) (cat : String) :
    countCat (l ++ [item]) cat =
      countCat l cat + if item.category = cat then 1 else 0 := by
  rw [countCat, countCat, List.filter_append]
  split
  · rename_i hc
    simp [List.filter, hc]
  · rename_i hc
    simp [List.filter, hc]

/-- Sum lemmas over an extended selection. -/
theorem sumCost_append (l : List Item) (item : Item) :
    sumCost (l ++ [item]) = sumCost l + item.cost := by
  simp [sumCost]

/-- Weight sum over an extended selection. -/
theorem sumWeight_append (l : List Item) (item : Item) :
    sumWeight (l ++ [item]) = sumWeight l + item.weight := by
  simp [sumWeight]

/-- Value sum over an extended selection. -/
theorem sumValue_append (l : List Item) (item : Item) :
    sumValue (l ++ [item]) = sumValue l + item.value := by
  simp [sumValue]

/-- One greedy step preserves the invariant. -/
theorem greedyStep_inv (budget max_weight : ℚ)
    (category_limit : Option (List (String × ℕ))) (acc : GreedyAcc) (item : Item)
    (hinv : GreedyInv budget max_weight category_limit acc) :
    GreedyInv budget max_weight category_limit
      (greedyStep budget max_weight category_limit acc item) := by
  rw [greedyStep]
  split
  · exact hinv
  split
  · exact hinv
  split
  · exact hinv
  rename_i hcost hweight hblocked
  constructor
  · rw [sumCost_append, ← hinv.cost_eq]
  · rw [sumWeight_append, ← hinv.weight_eq]
  · rw [sumValue_append, ← hinv.value_eq]
  · simpa using not_lt.1 hcost
  · simpa using not_lt.1 hweight
  · intro cat hcat
    simp only []
    rw [countCat_append]
    by_cases hic : item.category = cat
    · rw [if_pos hic, if_pos (by rw [hic]; exact hcat), hic, dictGet?_dictSet_self]
      simp [hinv.counts_eq cat hcat]
    · rw [if_neg hic]
      split
      · rw [dictGet?_dictSet_ne _ _ _ _ hic]
        simp [hinv.counts_eq cat hcat]
      · simp [hinv.counts_eq cat hcat]
  · intro m cat lim hm hlook hcat
    simp only []
    rw [countCat_append]
    by_cases hic : item.category = cat
    · rw [if_pos hic]
      have hblocked' : categoryBlocked category_limit acc.category_counts item.category
          = false := by
        revert hblocked
        cases categoryBlocked category_limit acc.category_counts item.category <;> simp
      rw [categoryBlocked, hm, hic] at hblocked'
      rw [limitsActive_of_lookup m cat lim hlook] at hblocked'
      simp only [Option.getD_some, Bool.true_and] at hblocked'
      rw [hlook] at hblocked'
      simp only [decide_eq_false_iff_not, not_le] at hblocked'
      have := hinv.counts_eq cat hcat
      rw [this] at hblocked'
      omega
    · rw [if_neg hic]
      simpa using hinv.caps m cat lim hm hlook hcat

/-- The greedy fold preserves the invariant. -/
theorem greedy_foldl_inv (budget max_weight : ℚ)
    (category_limit : Option (List (String × ℕ))) :
    ∀ (l : List Item) (acc : GreedyAcc),
      GreedyInv budget max_weight category_limit acc →
      GreedyInv budget max_weight category_limit
        (l.foldl (greedyStep budget max_weight category_limit) acc) := by
  intro l
  induction l with
  | nil => intro acc h; exact h
  | cons item l ih =>
    intro acc h
    exact ih _ (greedyStep_inv budget max_weight category_limit acc item h)

/-- A greedy step either skips the item or appends exactly it. -/
theorem greedyStep_selected (budget max_weight : ℚ)
    (category_limit : Option (List (String × ℕ))) (acc : GreedyAcc) (item : Item) :
    greedyStep budget max_weight category_limit acc item = acc ∨
    (greedyStep budget max_weight category_limit acc item).selected =
      acc.selected ++ [item] := by
  rw [greedyStep]
  split
  · exact Or.inl rfl
  split
  · exact Or.inl rfl
  split
  · exact Or.inl rfl
  · exact Or.inr rfl

/-- The greedy fold appends a sublist of the scanned items to the selection. -/
theorem greedy_foldl_sublist (budget max_weight : ℚ)
    (category_limit : Option (List (String × ℕ))) :
    ∀ (l : List Item) (acc : GreedyAcc),
      ∃ t, (l.foldl (greedyStep budget max_weight category_limit) acc).selected =
        acc.selected ++ t ∧ t.Sublist l := by
  intro l
  induction l with
  | nil => intro acc; exact ⟨[], by simp, List.Sublist.refl []⟩
  | cons item l ih =>
    intro acc
    rw [List.foldl_cons]
    rcases greedyStep_selected budget max_weight category_limit acc item with hskip | hadd
    · obtain ⟨t, ht, hsub⟩ := ih (greedyStep budget max_weight category_limit acc item)
      rw [hskip] at ht
      rw [hskip]
      exact ⟨t, ht, hsub.cons item⟩
    · obtain ⟨t, ht, hsub⟩ := ih (greedyStep budget max_weight category_limit acc item)
      refine ⟨item :: t, ?_, hsub.cons₂ item⟩
      rw [ht, hadd, List.append_assoc, List.singleton_append]

/-! ### Helper lemmas for the knapsack claims: the DP -/

/-- Scaled integer cost of a selection. -/
def centCostSum (l : List Item) : ℤ := (l.map (fun it => centScale it.cost)).sum

/-- Scaled integer weight of a selection. -/
def centWeightSum (l : List Item) : ℤ := (l.map (fun it => centScale it.weight)).sum

/-- Scaling a nonnegative quantity gives a nonnegative integer. -/
theorem centScale_nonneg (x : ℚ) (hx : 0 ≤ x) : 0 ≤ centScale x := by
  rw [centScale, pyInt, if_pos (by positivity)]
  exact Int.le_floor.2 (by positivity)

/-- The scaled integer is at most `100` times the quantity. -/
theorem centScale_le (x : ℚ) (hx : 0 ≤ x) : (centScale x : ℚ) ≤ x * 100 := by
  rw [centScale, pyInt, if_pos (by positivity)]
  exact Int.floor_le _

/-- Invariant of the DP state dictionaries, maintained while the items are folded in:
the two dicts share their key set, the keys are distinct, the origin is present, a `None`
parent entry can only be the untouched origin, every real parent entry records a
consistent transition (index in range, state arithmetic, reachable predecessor, and the
recorded value is bounded by the predecessor's value plus the item's value), all stored
values are nonnegative, and all states respect the scaled bounds. -/
structure DpInv (items : List Item) (budget_int max_weight_int : ℤ) (st : DpSt) : Prop where
  keys_eq : ∀ k, k ∈ st.dp.map Prod.fst ↔ k ∈ st.parent.map Prod.fst
  nodup : (st.dp.map Prod.fst).Nodup
  origin_mem : (((0 : ℤ), (0 : ℤ))) ∈ st.dp.map Prod.fst
  parent_none : ∀ k, dictGet? st.parent k = some none →
    k = (0, 0) ∧ dictGet? st.dp k = some 0
  parent_some : ∀ k pk i, dictGet? st.parent k = some (some (pk, i)) →
    i < items.length ∧
    k.1 = pk.1 + centScale (items.getD i defaultItem).cost ∧
    k.2 = pk.2 + centScale (items.getD i defaultItem).weight ∧
    pk ∈ st.dp.map Prod.fst ∧
    ∀ u, dictGet? st.dp k = some u →
      ∃ upk, dictGet? st.dp pk = some upk ∧ u ≤ upk + (items.getD i defaultItem).value
  nonneg : ∀ kv ∈ st.dp, (0 : ℚ) ≤ kv.2
  bounds : ∀ kv ∈ st.dp, kv.1.1 ≤ budget_int ∧ kv.1.2 ≤ max_weight_int

/-- The invariant holds of the initial DP state `{(0,0) ↦ 0}` / `{(0,0) ↦ None}`. -/
theorem dpInv_init (items : List Item) (budget_int max_weight_int : ℤ)
    (hb : 0 ≤ budget_int) (hw : 0 ≤ max_weight_int) :
    DpInv items budget_int max_weight_int ⟨[((0, 0), 0)], [((0, 0), none)]⟩ := by
  constructor
  · intro k; simp
  · simp
  · simp
  · intro k hk
    rw [dictGet?] at hk
    split at hk
    · rename_i h0
      refine ⟨h0.symm, ?_⟩
      rw [← h0]
      rw [dictGet?, if_pos rfl]
    · exact absurd hk (by rw [dictGet?]; exact Option.noConfusion)
  · intro k pk i hk
    rw [dictGet?] at hk
    split at hk
    · cases hk
    · exact absurd hk (by rw [dictGet?]; exact Option.noConfusion)
  · intro kv hkv
    rcases List.mem_singleton.1 hkv with rfl
    exact le_refl 0
  · intro kv hkv
    rcases List.mem_singleton.1 hkv with rfl
    exact ⟨hb, hw⟩

/-- A single accepted DP transition (the `dp[...] = new_value; parent[...] = ...` update)
preserves the invariant.  The source state must be a present key, the item index must be
in range with a nonnegative value, and the destination must satisfy the scaled bounds and
the strict-improvement test. -/
theorem dpInv_update (items : List Item) (budget_int max_weight_int : ℤ) (st : DpSt)
    (inv : DpInv items budget_int max_weight_int st) (b w : ℤ) (i : ℕ)
    (hib : i < items.length) (hv : 0 ≤ (items.getD i defaultItem).value)
    (hmem : (b, w) ∈ st.dp.map Prod.fst)
    (hb : b + centScale (items.getD i defaultItem).cost ≤ budget_int)
    (hw : w + centScale (items.getD i defaultItem).weight ≤ max_weight_int)
    (hgt : (dictGet? st.dp (b + centScale (items.getD i defaultItem).cost,
        w + centScale (items.getD i defaultItem).weight)).getD (-1) <
      (dictGet? st.dp (b, w)).getD 0 + (items.getD i defaultItem).value) :
    DpInv items budget_int max_weight_int
      ⟨dictSet st.dp
         (b + centScale (items.getD i defaultItem).cost,
          w + centScale (items.getD i defaultItem).weight)
         ((dictGet? st.dp (b, w)).getD 0 + (items.getD i defaultItem).value),
       dictSet st.parent
         (b + centScale (items.getD i defaultItem).cost,
          w + centScale (items.getD i defaultItem).weight)
         (some ((b, w), i))⟩ := by
  set ci := centScale (items.getD i defaultItem).cost with hci
  set wi := centScale (items.getD i defaultItem).weight with hwi
  set v := (items.getD i defaultItem).value with hvv
  set dest : ℤ × ℤ := (b + ci, w + wi) with hdest
  set nv : ℚ := (dictGet? st.dp (b, w)).getD 0 + v with hnv
  have hnv_nonneg : 0 ≤ nv := by
    rw [hnv]
    rcases hlook : dictGet? st.dp (b, w) with _ | v0
    · simpa using hv
    · have := inv.nonneg _ (dictGet?_mem _ _ _ hlook)
      simp only [Option.getD_some]
      exact add_nonneg this hv
  have hmono : ∀ k u, dictGet? st.dp k = some u →
      ∃ u', dictGet? (dictSet st.dp dest nv) k = some u' ∧ u ≤ u' := by
    intro k u hu
    by_cases hk : k = dest
    · subst hk
      refine ⟨nv, dictGet?_dictSet_self _ _ _, ?_⟩
      rw [hu] at hgt
      simp only [Option.getD_some] at hgt
      exact le_of_lt hgt
    · exact ⟨u, by rw [dictGet?_dictSet_ne _ _ _ _ (fun h => hk h.symm), hu], le_refl u⟩
  constructor
  · intro k
    rw [mem_keys_dictSet, mem_keys_dictSet, inv.keys_eq k]
  · exact dictSet_keys_nodup _ _ _ inv.nodup
  · exact (mem_keys_dictSet _ _ _ _).2 (Or.inl inv.origin_mem)
  · intro k hk
    by_cases hkd : k = dest
    · subst hkd
      rw [dictGet?_dictSet_self] at hk
      cases hk
    · rw [dictGet?_dictSet_ne _ _ _ _ (fun h => hkd h.symm)] at hk
      obtain ⟨hk0, hkv⟩ := inv.parent_none k hk
      refine ⟨hk0, ?_⟩
      rw [dictGet?_dictSet_ne _ _ _ _ (fun h => hkd h.symm), hkv]
  · intro k pk i' hk
    by_cases hkd : k = dest
    · subst hkd
      rw [dictGet?_dictSet_self] at hk
      have hpk : pk = (b, w) ∧ i' = i := by
        cases hk
        exact ⟨rfl, rfl⟩
      obtain ⟨rfl, rfl⟩ := hpk
      refine ⟨hib, rfl, rfl, (mem_keys_dictSet _ _ _ _).2 (Or.inl hmem), ?_⟩
      intro u hu
      rw [dictGet?_dictSet_self] at hu
      cases hu
      by_cases hbw : (b, w) = dest
      · refine ⟨nv, by rw [hbw]; exact dictGet?_dictSet_self _ _ _, ?_⟩
        nlinarith [hv]
      · obtain ⟨v0, hv0⟩ := dictGet?_isSome_of_mem _ _ hmem
        refine ⟨v0, by rw [dictGet?_dictSet_ne _ _ _ _ (fun h => hbw h.symm), hv0], ?_⟩
        rw [hnv, hv0]
        simp only [Option.getD_some]
        exact le_refl _
    · rw [dictGet?_dictSet_ne _ _ _ _ (fun h => hkd h.symm)] at hk
      obtain ⟨h1, h2, h3, h4, h5⟩ := inv.parent_some k pk i' hk
      refine ⟨h1, h2, h3, (mem_keys_dictSet _ _ _ _).2 (Or.inl h4), ?_⟩
      intro u hu
      rw [dictGet?_dictSet_ne _ _ _ _ (fun h => hkd h.symm)] at hu
      obtain ⟨upk, hupk, hle⟩ := h5 u hu
      obtain ⟨upk', hupk', hle'⟩ := hmono pk upk hupk
      exact ⟨upk', hupk', le_trans hle (by linarith)⟩
  · intro kv hkv
    rcases mem_of_mem_dictSet _ _ _ _ hkv with rfl | hkv'
    · exact hnv_nonneg
    · exact inv.nonneg _ hkv'
  · intro kv hkv
    rcases mem_of_mem_dictSet _ _ _ _ hkv with rfl | hkv'
    · exact ⟨hb, hw⟩
    · exact inv.bounds _ hkv'

/-- The inner snapshot loop preserves the invariant when every scanned key is a present
key of the dict. -/
theorem dpInner_inv (items : List Item) (budget_int max_weight_int : ℤ) (i : ℕ)
    (hib : i < items.length) (hv : 0 ≤ (items.getD i defaultItem).value) :
    ∀ (ks : List (ℤ × ℤ)) (st : DpSt),
      DpInv items budget_int max_weight_int st →
      (∀ k ∈ ks, k ∈ st.dp.map Prod.fst) →
      DpInv items budget_int max_weight_int
        (dpInner budget_int max_weight_int
          (centScale (items.getD i defaultItem).cost)
          (centScale (items.getD i defaultItem).weight)
          (items.getD i defaultItem).value i st ks) := by
  intro ks
  induction ks with
  | nil => intro st inv _; simpa [dpInner] using inv
  | cons p ks ih =>
    obtain ⟨b, w⟩ := p
    intro st inv hks
    simp only [dpInner]
    split
    · exact ih st inv (fun k hk => hks k (List.mem_cons_of_mem _ hk))
    · rename_i hbounds
      push_neg at hbounds
      split
      · rename_i hgt
        refine ih _ (dpInv_update items budget_int max_weight_int st inv b w i hib hv
          (hks _ (List.mem_cons_self _ _)) hbounds.1 hbounds.2 hgt) ?_
        intro k hk
        exact (mem_keys_dictSet _ _ _ _).2 (Or.inl (hks k (List.mem_cons_of_mem _ hk)))
      · exact ih st inv (fun k hk => hks k (List.mem_cons_of_mem _ hk))

/-- Processing one item preserves the invariant. -/
theorem dpStep_inv (items : List Item) (bi mwi : ℤ) (st : DpSt) (p : ℕ × Item)
    (hp1 : p.1 < items.length) (hp2 : items.getD p.1 defaultItem = p.2)
    (hv : 0 ≤ p.2.value) (inv : DpInv items bi mwi st) :
    DpInv items bi mwi (dpStep bi mwi st p) := by
  rw [dpStep, ← hp2]
  exact dpInner_inv items bi mwi p.1 hp1 (by rw [hp2]; exact hv) _ st inv
    (fun k hk => hk)

/-- Folding any list of indexed items preserves the invariant. -/
theorem dpFold_inv (items : List Item) (bi mwi : ℤ) :
    ∀ (l : List (ℕ × Item)) (st : DpSt),
      DpInv items bi mwi st →
      (∀ p ∈ l, p.1 < items.length ∧ items.getD p.1 defaultItem = p.2 ∧ 0 ≤ p.2.value) →
      DpInv items bi mwi (l.foldl (dpStep bi mwi) st) := by
  intro l
  induction l with
  | nil => intro st inv _; exact inv
  | cons p l ih =>
    intro st inv hl
    rw [List.foldl_cons]
    have hp := hl p (List.mem_cons_self _ _)
    exact ih _ (dpStep_inv items bi mwi st p hp.1 hp.2.1 hp.2.2 inv)
      (fun q hq => hl q (List.mem_cons_of_mem _ hq))

/-- Entries of `items.enum` carry their own index. -/
theorem mem_enum_spec (l : List Item) (p : ℕ × Item) (hp : p ∈ l.enum) :
    p.1 < l.length ∧ l.getD p.1 defaultItem = p.2 := by
  obtain ⟨n, hn, hg⟩ := List.mem_iff_getElem.1 hp
  have hn' : n < l.length := by simpa using hn
  rw [List.getElem_enum] at hg
  subst hg
  exact ⟨hn', List.getD_eq_getElem _ _ hn'⟩

/-- Entries of `items.enum` are items of the list. -/
theorem mem_enum_snd_mem (l : List Item) (p : ℕ × Item) (hp : p ∈ l.enum) : p.2 ∈ l := by
  obtain ⟨h1, h2⟩ := mem_enum_spec l p hp
  rw [← h2, List.getD_eq_getElem _ _ h1]
  exact List.getElem_mem _

/-- Values stored in the DP dict never decrease across the inner snapshot loop, and keys
are never removed. -/
theorem dpInner_mono (bi mwi ci wi : ℤ) (v : ℚ) (i : ℕ) :
    ∀ (ks : List (ℤ × ℤ)) (st : DpSt) (k : ℤ × ℤ) (u : ℚ),
      dictGet? st.dp k = some u →
      ∃ u', dictGet? (dpInner bi mwi ci wi v i st ks).dp k = some u' ∧ u ≤ u' := by
  intro ks
  induction ks with
  | nil =>
    intro st k u hu
    exact ⟨u, by simpa [dpInner] using hu, le_refl u⟩
  | cons p ks ih =>
    obtain ⟨b, w⟩ := p
    intro st k u hu
    simp only [dpInner]
    split
    · exact ih st k u hu
    split
    · rename_i hgt
      by_cases hk : k = (b + ci, w + wi)
      · subst hk
        obtain ⟨u', hu', hle⟩ := ih
          ⟨dictSet st.dp (b + ci, w + wi) ((dictGet? st.dp (b, w)).getD 0 + v),
           dictSet st.parent (b + ci, w + wi) (some ((b, w), i))⟩
          (b + ci, w + wi) ((dictGet? st.dp (b, w)).getD 0 + v)
          (dictGet?_dictSet_self _ _ _)
        refine ⟨u', hu', ?_⟩
        rw [hu] at hgt
        simp only [Option.getD_some] at hgt
        exact le_trans (le_of_lt hgt) hle
      · exact ih
          ⟨dictSet st.dp (b + ci, w + wi) ((dictGet? st.dp (b, w)).getD 0 + v),
           dictSet st.parent (b + ci, w + wi) (some ((b, w), i))⟩
          k u
          ((dictGet?_dictSet_ne st.dp (b + ci, w + wi) k
            ((dictGet? st.dp (b, w)).getD 0 + v) (fun h => hk h.symm)).trans hu)
    · exact ih st k u hu

/-- If a state sits on the scanned snapshot with a stored value at least `vv`, its
in-bounds successor ends up stored with a value at least `vv + v` after the inner loop. -/
theorem dpInner_hit (bi mwi ci wi : ℤ) (v : ℚ) (i : ℕ) (hv : 0 ≤ v) :
    ∀ (ks : List (ℤ × ℤ)) (st : DpSt) (b w : ℤ) (vv : ℚ),
      (b, w) ∈ ks →
      (∃ v0, dictGet? st.dp (b, w) = some v0 ∧ vv ≤ v0) →
      0 ≤ vv →
      b + ci ≤ bi → w + wi ≤ mwi →
      ∃ u, dictGet? (dpInner bi mwi ci wi v i st ks).dp (b + ci, w + wi) = some u ∧
        vv + v ≤ u := by
  intro ks
  induction ks with
  | nil =>
    intro st b w vv hmem
    simp at hmem
  | cons p ks ih =>
    obtain ⟨b', w'⟩ := p
    intro st b w vv hmem hex hvv hbb hww
    simp only [dpInner]
    rcases List.mem_cons.1 hmem with heq | hmem'
    · rw [Prod.mk.injEq] at heq
      obtain ⟨rfl, rfl⟩ := heq
      rw [if_neg (by push_neg; exact ⟨hbb, hww⟩)]
      obtain ⟨v0, hv0, hvv0⟩ := hex
      split
      · obtain ⟨u, hu, hle⟩ := dpInner_mono bi mwi ci wi v i ks
          ⟨dictSet st.dp (b + ci, w + wi) ((dictGet? st.dp (b, w)).getD 0 + v),
           dictSet st.parent (b + ci, w + wi) (some ((b, w), i))⟩
          (b + ci, w + wi) ((dictGet? st.dp (b, w)).getD 0 + v)
          (dictGet?_dictSet_self _ _ _)
        refine ⟨u, hu, le_trans ?_ hle⟩
        rw [hv0]
        simp only [Option.getD_some]
        linarith
      · rename_i hngt
        push_neg at hngt
        rw [hv0] at hngt
        simp only [Option.getD_some] at hngt
        rcases hdl : dictGet? st.dp (b + ci, w + wi) with _ | u0
        · rw [hdl] at hngt
          simp only [Option.getD_none] at hngt
          linarith
        · rw [hdl] at hngt
          simp only [Option.getD_some] at hngt
          obtain ⟨u, hu, hle⟩ := dpInner_mono bi mwi ci wi v i ks st _ _ hdl
          exact ⟨u, hu, by linarith⟩
    · split
      · exact ih st b w vv hmem' hex hvv hbb hww
      split
      · rename_i hgt
        obtain ⟨v0, hv0, hvv0⟩ := hex
        refine ih
          ⟨dictSet st.dp (b' + ci, w' + wi) ((dictGet? st.dp (b', w')).getD 0 + v),
           dictSet st.parent (b' + ci, w' + wi) (some ((b', w'), i))⟩
          b w vv hmem' ?_ hvv hbb hww
        by_cases hk : (b, w) = (b' + ci, w' + wi)
        · refine ⟨(dictGet? st.dp (b', w')).getD 0 + v, ?_, ?_⟩
          · rw [hk]
            exact dictGet?_dictSet_self _ _ _
          · have hgt' : (dictGet? st.dp (b' + ci, w' + wi)).getD (-1) <
                (dictGet? st.dp (b', w')).getD 0 + v := hgt
            rw [← hk, hv0] at hgt'
            simp only [Option.getD_some] at hgt'
            linarith
        · exact ⟨v0, (dictGet?_dictSet_ne st.dp (b' + ci, w' + wi) (b, w)
            ((dictGet? st.dp (b', w')).getD 0 + v) (fun h => hk h.symm)).trans hv0, hvv0⟩
      · exact ih st b w vv hmem' hex hvv hbb hww

/-- Reachability invariant of the DP fold: every sublist of the processed items whose
scaled sums respect the bounds has its state stored with at least its total value. -/
def dpReaches (processed : List Item) (bi mwi : ℤ) (st : DpSt) : Prop :=
  ∀ s : List Item, s.Sublist processed →
    centCostSum s ≤ bi → centWeightSum s ≤ mwi →
    ∃ u, dictGet? st.dp (centCostSum s, centWeightSum s) = some u ∧ sumValue s ≤ u

/-- The initial DP state reaches the empty selection. -/
theorem dpReaches_init (bi mwi : ℤ) :
    dpReaches [] bi mwi ⟨[((0, 0), 0)], [((0, 0), none)]⟩ := by
  intro s hs _ _
  rcases List.sublist_nil.1 hs with rfl
  refine ⟨0, ?_, by simp [sumValue]⟩
  simp only [centCostSum, centWeightSum, List.map_nil, List.sum_nil]
  rw [dictGet?, if_pos rfl]

/-- Scaled cost of an extended selection. -/
theorem centCostSum_append (l : List Item) (a : Item) :
    centCostSum (l ++ [a]) = centCostSum l + centScale a.cost := by
  simp [centCostSum]

/-- Scaled weight of an extended selection. -/
theorem centWeightSum_append (l : List Item) (a : Item) :
    centWeightSum (l ++ [a]) = centWeightSum l + centScale a.weight := by
  simp [centWeightSum]

/-- Processing one item extends reachability to selections that may use it once. -/
theorem dpStep_reaches (bi mwi : ℤ) (st : DpSt) (processed : List Item) (p : ℕ × Item)
    (hr : dpReaches processed bi mwi st)
    (hvals : ∀ it ∈ processed, 0 ≤ it.value)
    (hv : 0 ≤ p.2.value) (hc : 0 ≤ p.2.cost) (hwt : 0 ≤ p.2.weight) :
    dpReaches (processed ++ [p.2]) bi mwi (dpStep bi mwi st p) := by
  intro s hs hsb hsw
  rw [List.sublist_append_iff] at hs
  obtain ⟨l₁, l₂, rfl, h₁, h₂⟩ := hs
  rcases List.sublist_cons_iff.1 h₂ with h₂' | ⟨r, rfl, hr'⟩
  · rcases List.sublist_nil.1 h₂' with rfl
    rw [List.append_nil] at hsb hsw ⊢
    obtain ⟨u, hu, hle⟩ := hr l₁ h₁ hsb hsw
    rw [dpStep]
    obtain ⟨u', hu', hle'⟩ := dpInner_mono bi mwi (centScale p.2.cost)
      (centScale p.2.weight) p.2.value p.1 (st.dp.map (·.1)) st _ _ hu
    exact ⟨u', hu', le_trans hle hle'⟩
  · rcases List.sublist_nil.1 hr' with rfl
    rw [centCostSum_append] at hsb ⊢
    rw [centWeightSum_append] at hsw ⊢
    have hci : 0 ≤ centScale p.2.cost := centScale_nonneg _ hc
    have hwi : 0 ≤ centScale p.2.weight := centScale_nonneg _ hwt
    obtain ⟨u0, hu0, hle0⟩ := hr l₁ h₁ (by omega) (by omega)
    rw [dpStep]
    have hvv : 0 ≤ sumValue l₁ := by
      refine List.sum_nonneg ?_
      intro x hx
      obtain ⟨it, hit, rfl⟩ := List.mem_map.1 hx
      exact hvals it (h₁.subset hit)
    obtain ⟨u, hu, hle⟩ := dpInner_hit bi mwi (centScale p.2.cost)
      (centScale p.2.weight) p.2.value p.1 hv (st.dp.map (·.1)) st
      (centCostSum l₁) (centWeightSum l₁) (sumValue l₁)
      (mem_keys_of_dictGet? _ _ _ hu0) ⟨u0, hu0, hle0⟩ hvv hsb hsw
    refine ⟨u, hu, ?_⟩
    rw [sumValue_append]
    exact hle

/-- Folding a list of indexed items extends reachability to their selections. -/
theorem dpFold_reaches (bi mwi : ℤ) :
    ∀ (l : List (ℕ × Item)) (st : DpSt) (processed : List Item),
      dpReaches processed bi mwi st →
      (∀ it ∈ processed, 0 ≤ it.value) →
      (∀ p ∈ l, 0 ≤ p.2.value ∧ 0 ≤ p.2.cost ∧ 0 ≤ p.2.weight) →
      dpReaches (processed ++ l.map Prod.snd) bi mwi (l.foldl (dpStep bi mwi) st) := by
  intro l
  induction l with
  | nil =>
    intro st processed hr _ _
    simpa using hr
  | cons p l ih =>
    intro st processed hr hvals hl
    rw [List.foldl_cons, List.map_cons]
    have hp := hl p (List.mem_cons_self _ _)
    have hstep := dpStep_reaches bi mwi st processed p hr hvals hp.1 hp.2.1 hp.2.2
    have hrec := ih (dpStep bi mwi st p) (processed ++ [p.2]) hstep
      (by
        intro it hit
        rcases List.mem_append.1 hit with h | h
        · exact hvals it h
        · rcases List.mem_singleton.1 h with rfl
          exact hp.1)
      (fun q hq => hl q (List.mem_cons_of_mem _ hq))
    rw [List.append_assoc, List.singleton_append] at hrec
    exact hrec

/-- Specification of the best-state scan: the result dominates every stored value and is
either the initial `(0.0, (0, 0))` pair or an actual entry of the dict. -/
theorem bestState_spec (dp : List ((ℤ × ℤ) × ℚ)) :
    (∀ kv ∈ dp, kv.2 ≤ (bestState dp).1) ∧
    (bestState dp = (0, (0, 0)) ∨ ((bestState dp).2, (bestState dp).1) ∈ dp) := by
  have key : ∀ (l : List ((ℤ × ℤ) × ℚ)) (acc : ℚ × (ℤ × ℤ)),
      acc.1 ≤ (l.foldl (fun acc kv => if kv.2 > acc.1 then (kv.2, kv.1) else acc) acc).1 ∧
      (∀ kv ∈ l,
        kv.2 ≤ (l.foldl (fun acc kv => if kv.2 > acc.1 then (kv.2, kv.1) else acc) acc).1) ∧
      ((l.foldl (fun acc kv => if kv.2 > acc.1 then (kv.2, kv.1) else acc) acc) = acc ∨
        ((l.foldl (fun acc kv => if kv.2 > acc.1 then (kv.2, kv.1) else acc) acc).2,
         (l.foldl (fun acc kv => if kv.2 > acc.1 then (kv.2, kv.1) else acc) acc).1) ∈ l) := by
    intro l
    induction l with
    | nil =>
      intro acc
      exact ⟨le_refl _, by simp, Or.inl rfl⟩
    | cons kv l ih =>
      intro acc
      rw [List.foldl_cons]
      obtain ⟨h1, h2, h3⟩ := ih (if kv.2 > acc.1 then (kv.2, kv.1) else acc)
      refine ⟨?_, ?_, ?_⟩
      · refine le_trans ?_ h1
        split
        · rename_i hgt
          exact le_of_lt hgt
        · exact le_refl _
      · intro kv' hkv'
        rcases List.mem_cons.1 hkv' with rfl | hkv'
        · refine le_trans ?_ h1
          split
          · exact le_refl _
          · rename_i hngt
            exact not_lt.1 hngt
        · exact h2 kv' hkv'
      · rcases h3 with h3 | h3
        · rw [h3]
          split
          · simp
          · exact Or.inl rfl
        · exact Or.inr (List.mem_cons_of_mem _ h3)
  rw [bestState]
  obtain ⟨h1, h2, h3⟩ := key dp (0, (0, 0))
  exact ⟨h2, h3⟩

/-- Specification of the predecessor traceback: when it terminates starting from a stored
state, it appends a chain of in-range item indices whose scaled costs and weights sum
exactly to the state's coordinates, and whose total value dominates the state's stored
value. -/
theorem tracebackAux_spec (items : List Item) (bi mwi : ℤ) (st : DpSt)
    (inv : DpInv items bi mwi st) :
    ∀ (fuel : ℕ) (s : ℤ × ℤ) (acc out : List ℕ),
      tracebackAux st.parent fuel s acc = some out →
      s ∈ st.dp.map Prod.fst →
      ∃ chain : List ℕ,
        out = acc ++ chain ∧
        s.1 = (chain.map (fun i => centScale ((items.getD i defaultItem).cost))).sum ∧
        s.2 = (chain.map (fun i => centScale ((items.getD i defaultItem).weight))).sum ∧
        (∀ i ∈ chain, i < items.length) ∧
        ∀ u, dictGet? st.dp s = some u →
          u ≤ (chain.map (fun i => (items.getD i defaultItem).value)).sum := by
  intro fuel
  induction fuel with
  | zero =>
    intro s acc out h
    exact absurd h (by rw [tracebackAux]; exact Option.noConfusion)
  | succ f ih =>
    intro s acc out h hs
    rw [tracebackAux] at h
    rcases hp : dictGet? st.parent s with _ | po
    · exfalso
      obtain ⟨v', hv'⟩ := dictGet?_isSome_of_mem _ _ ((inv.keys_eq s).1 hs)
      rw [hp] at hv'
      cases hv'
    · rcases po with _ | ⟨pk, i⟩
      · rw [hp] at h
        obtain ⟨hs0, hdp0⟩ := inv.parent_none s hp
        cases h
        refine ⟨[], by simp, ?_, ?_, by simp, ?_⟩
        · rw [hs0]
          simp
        · rw [hs0]
          simp
        · intro u hu
          rw [hdp0] at hu
          cases hu
          simp
      · rw [hp] at h
        obtain ⟨hi, hk1, hk2, hpkmem, hlink⟩ := inv.parent_some s pk i hp
        obtain ⟨chain, hout, hc1, hc2, hclt, hcv⟩ := ih pk (acc ++ [i]) out h hpkmem
        refine ⟨i :: chain, ?_, ?_, ?_, ?_, ?_⟩
        · rw [hout, List.append_assoc, List.singleton_append]
        · rw [List.map_cons, List.sum_cons, ← hc1]
          omega
        · rw [List.map_cons, List.sum_cons, ← hc2]
          omega
        · intro i' hi'
          rcases List.mem_cons.1 hi' with rfl | hi'
          · exact hi
          · exact hclt i' hi'
        · intro u hu
          obtain ⟨upk, hupk, hule⟩ := hlink u hu
          have := hcv upk hupk
          rw [List.map_cons, List.sum_cons]
          linarith

/-- The greedy invariant holds of the empty accumulator. -/
theorem greedyInv_init (budget max_weight : ℚ)
    (category_limit : Option (List (String × ℕ))) (hb : 0 ≤ budget)
    (hw : 0 ≤ max_weight) :
    GreedyInv budget max_weight category_limit ⟨[], 0, 0, 0, []⟩ := by
  constructor
  · simp [sumCost]
  · simp [sumWeight]
  · simp [sumValue]
  · exact hb
  · exact hw
  · intro cat _
    simp [dictGet?, countCat]
  · intro m cat lim _ _ _
    simp [countCat]

/-- One filter step either keeps the accumulator or appends exactly the scanned index. -/
theorem filterStep_fst (m : List (String × ℕ)) (items : List Item)
    (acc : List ℕ × List (String × ℕ)) (idx : ℕ) :
    (filterStep m items acc idx).1 = acc.1 ∨
    (filterStep m items acc idx).1 = acc.1 ++ [idx] := by
  rw [filterStep]
  rcases dictGet? m (items.getD idx defaultItem).category with _ | lim
  · exact Or.inr rfl
  · simp only []
    split
    · exact Or.inl rfl
    · exact Or.inr rfl

/-- The category filter returns a sublist of the traced indices. -/
theorem applyCategoryFilter_sublist (cl : Option (List (String × ℕ)))
    (items : List Item) (idxs : List ℕ) :
    (applyCategoryFilter cl items idxs).Sublist idxs := by
  rw [applyCategoryFilter]
  split
  · have key : ∀ (l : List ℕ) (acc : List ℕ × List (String × ℕ)),
        ∃ t, (l.foldl (filterStep (cl.getD []) items) acc).1 = acc.1 ++ t ∧
          t.Sublist l := by
      intro l
      induction l with
      | nil => intro acc; exact ⟨[], by simp, List.Sublist.refl []⟩
      | cons idx l ih =>
        intro acc
        rw [List.foldl_cons]
        obtain ⟨t, ht, hsub⟩ := ih (filterStep (cl.getD []) items acc idx)
        rcases filterStep_fst (cl.getD []) items acc idx with hskip | hadd
        · rw [hskip] at ht
          exact ⟨t, ht, hsub.cons idx⟩
        · rw [hadd] at ht
          refine ⟨idx :: t, ?_, hsub.cons₂ idx⟩
          rw [ht, List.append_assoc, List.singleton_append]
    obtain ⟨t, ht, hsub⟩ := key idxs ([], [])
    rw [ht]
    simpa using hsub
  · exact List.Sublist.refl idxs

/-- The category filter enforces every category cap over the kept selection. -/
theorem applyCategoryFilter_caps (cl : Option (List (String × ℕ))) (items : List Item)
    (idxs : List ℕ) (m : List (String × ℕ)) (cat : String) (lim : ℕ)
    (hcl : cl = some m) (hlook : dictGet? m cat = some lim) :
    countCat ((applyCategoryFilter cl items idxs).map (fun i => items.getD i defaultItem))
      cat ≤ lim := by
  subst hcl
  rw [applyCategoryFilter, if_pos (limitsActive_of_lookup m cat lim hlook)]
  have key : ∀ (l : List ℕ) (acc : List ℕ × List (String × ℕ)),
      (∀ cat' lim', dictGet? m cat' = some lim' →
        (dictGet? acc.2 cat').getD 0 =
          countCat (acc.1.map (fun i => items.getD i defaultItem)) cat' ∧
        countCat (acc.1.map (fun i => items.getD i defaultItem)) cat' ≤ lim') →
      ∀ cat' lim', dictGet? m cat' = some lim' →
        countCat (((l.foldl (filterStep ((some m).getD []) items) acc).1).map
          (fun i => items.getD i defaultItem)) cat' ≤ lim' := by
    intro l
    induction l with
    | nil =>
      intro acc hacc cat' lim' hl'
      exact (hacc cat' lim' hl').2
    | cons idx l ih =>
      intro acc hacc cat' lim' hl'
      rw [List.foldl_cons]
      refine ih (filterStep ((some m).getD []) items acc idx) ?_ cat' lim' hl'
      intro cat'' lim'' hl''
      rw [filterStep]
      simp only [Option.getD_some]
      rcases hcat0 : dictGet? m (items.getD idx defaultItem).category with _ | lim0
      · simp only []
        rw [List.map_append, List.map_singleton]
        rw [countCat_append ((acc.1.map (fun i => items.getD i defaultItem)))]
        have hne : ¬ (items.getD idx defaultItem).category = cat'' := by
          intro hh
          rw [hh, hl''] at hcat0
          cases hcat0
        rw [if_neg hne]
        simpa using hacc cat'' lim'' hl''
      · simp only []
        split
        · exact hacc cat'' lim'' hl''
        · rename_i hlt
          push_neg at hlt
          simp only []
          rw [List.map_append, List.map_singleton,
            countCat_append ((acc.1.map (fun i => items.getD i defaultItem)))]
          by_cases hcc : (items.getD idx defaultItem).category = cat''
          · rw [if_pos hcc, hcc, dictGet?_dictSet_self]
            obtain ⟨hcnt, hle⟩ := hacc cat'' lim'' hl''
            rw [hcc] at hcat0 hlt
            rw [hl''] at hcat0
            have hlimeq : lim'' = lim0 := Option.some.inj hcat0
            subst hlimeq
            refine ⟨by simp [hcnt], by omega⟩
          · rw [if_neg hcc, dictGet?_dictSet_ne _ _ _ _ hcc]
            simpa using hacc cat'' lim'' hl''
  refine key idxs ([], []) ?_ cat lim hlook
  intro cat' lim' _
  simp [dictGet?, countCat]

/-- Exact two-decimal quantities: `x * 100` is an integer. -/
def centExact (x : ℚ) : Prop := ∃ k : ℤ, x * 100 = (k : ℚ)

/-- On exact two-decimal quantities the scaling is lossless. -/
theorem centScale_exact (x : ℚ) (h : centExact x) : (centScale x : ℚ) = x * 100 := by
  obtain ⟨k, hk⟩ := h
  rw [centScale, pyInt, hk]
  rcases le_or_lt 0 ((k : ℚ)) with h0 | h0
  · rw [if_pos h0, Int.floor_intCast]
  · rw [if_neg (not_le.2 h0), Int.ceil_intCast]

/-- Scaled sums of nonnegative quantities respect the scaled bound. -/
theorem centSum_le_scaled (l : List Item) (f : Item → ℚ) (bound : ℚ)
    (hf : ∀ it ∈ l, 0 ≤ f it) (hsum : (l.map f).sum ≤ bound) :
    (l.map (fun it => centScale (f it))).sum ≤ pyInt (bound * 100) := by
  have hb : 0 ≤ bound := by
    refine le_trans ?_ hsum
    exact List.sum_nonneg (fun x hx => by
      obtain ⟨it, hit, rfl⟩ := List.mem_map.1 hx
      exact hf it hit)
  rw [pyInt, if_pos (by positivity)]
  rw [Int.le_floor]
  have hcast : ((l.map (fun it => centScale (f it))).sum : ℚ) =
      (l.map (fun it => ((centScale (f it) : ℚ)))).sum := by
    rw [Int.cast_list_sum, List.map_map]
    rfl
  rw [hcast]
  have hstep : (l.map (fun it => ((centScale (f it) : ℚ)))).sum ≤
      (l.map (fun it => f it * 100)).sum := by
    refine List.sum_le_sum ?_
    intro it hit
    exact centScale_le (f it) (hf it hit)
  refine le_trans hstep ?_
  have : (l.map (fun it => f it * 100)).sum = (l.map f).sum * 100 := by
    rw [← List.sum_map_mul_right]
  rw [this]
  nlinarith

/-- Elimination principle for a successful `knapsack_dp` run: the returned quadruple comes
from a terminating traceback, the returned items are the filtered traced indices, and the
totals are the recomputed sums. -/
theorem knapsack_dp_elim (items : List Item) (budget max_weight : ℚ)
    (cl : Option (List (String × ℕ))) (sel : List Item) (v c w : ℚ)
    (h : knapsack_dp items budget max_weight cl = some (sel, v, c, w)) :
    ∃ idxs : List ℕ,
      tracebackAux
        (List.foldl (dpStep (pyInt (budget * 100)) (pyInt (max_weight * 100)))
          ⟨[((0, 0), 0)], [((0, 0), none)]⟩ items.enum).parent
        ((List.foldl (dpStep (pyInt (budget * 100)) (pyInt (max_weight * 100)))
          ⟨[((0, 0), 0)], [((0, 0), none)]⟩ items.enum).parent.length + 1)
        (bestState (List.foldl (dpStep (pyInt (budget * 100)) (pyInt (max_weight * 100)))
          ⟨[((0, 0), 0)], [((0, 0), none)]⟩ items.enum).dp).2 [] = some idxs ∧
      sel = (applyCategoryFilter cl items idxs.reverse).map
        (fun i => items.getD i defaultItem) ∧
      v = sumValue sel ∧ c = sumCost sel ∧ w = sumWeight sel := by
  simp only [knapsack_dp] at h
  split at h
  · exact absurd h (by exact Option.noConfusion)
  · rename_i idxs htb
    rw [Option.some_inj] at h
    obtain ⟨h1, h2, h3, h4⟩ : _ ∧ _ ∧ _ ∧ _ := by
      rw [Prod.mk.injEq, Prod.mk.injEq, Prod.mk.injEq] at h
      exact ⟨h.1, h.2.1, h.2.2.1, h.2.2.2⟩
    subst h1
    subst h2
    subst h3
    subst h4
    exact ⟨idxs, htb, rfl, rfl, rfl, rfl⟩

/-- In-range defaulted indexing produces an item of the list. -/
theorem getD_mem (items : List Item) (i : ℕ) (h : i < items.length) :
    items.getD i defaultItem ∈ items := by
  rw [List.getD_eq_getElem _ _ h]
  exact List.getElem_mem _

/-- On exact two-decimal data, a scaled-sum bound transfers back to the rationals. -/
theorem sum_le_of_cent (l : List Item) (f : Item → ℚ) (bound : ℚ)
    (hex : ∀ it ∈ l, centExact (f it)) (hbex : centExact bound)
    (hle : (l.map (fun it => centScale (f it))).sum ≤ pyInt (bound * 100)) :
    (l.map f).sum ≤ bound := by
  have h1 : (((l.map (fun it => centScale (f it))).sum : ℤ) : ℚ) = (l.map f).sum * 100 := by
    rw [Int.cast_list_sum, List.map_map]
    have hcongr : (l.map (Int.cast ∘ fun it => centScale (f it))) =
        l.map (fun it => f it * 100) := by
      refine List.map_congr_left ?_
      intro it hit
      exact centScale_exact (f it) (hex it hit)
    rw [hcongr, ← List.sum_map_mul_right]
  have h2 : ((pyInt (bound * 100) : ℤ) : ℚ) = bound * 100 := centScale_exact bound hbex
  have h3 : (((l.map (fun it => centScale (f it))).sum : ℤ) : ℚ) ≤
      ((pyInt (bound * 100) : ℤ) : ℚ) := by exact_mod_cast hle
  rw [h1, h2] at h3
  linarith

/-- Without a category-limit map the filter is the identity. -/
theorem applyCategoryFilter_none (items : List Item) (idxs : List ℕ) :
    applyCategoryFilter none items idxs = idxs := rfl

/-- C1 counterexample: both halves of the claimed invariant fail on the code.
First, the DP's `int(x * 100)` truncation admits an item of cost `0.999` under budget
`0.99` (both scale to `99`), so the recomputed `total_cost` exceeds the budget.
Second, the greedy pass only increments a category counter for nonempty category names,
so a cap on the empty-string category is never enforced: with limit `{" " ↦ 1}` on `""`
it selects two items of that category. -/
theorem claim_C1_counterexample :
    (knapsack_dp [⟨1, 999 / 1000, 0, ""⟩] (99 / 100) 0 none =
        some ([⟨1, 999 / 1000, 0, ""⟩], 1, 999 / 1000, 0) ∧
      ¬ sumCost [(⟨1, 999 / 1000, 0, ""⟩ : Item)] ≤ 99 / 100) ∧
    (countCat (knapsack_greedy [⟨1, 0, 0, ""⟩, ⟨1, 0, 0, ""⟩] 0 0
        (some [("", 1)])).1 "" = 2 ∧
      dictGet? [("", 1)] "" = some 1 ∧ ¬ (2 ≤ 1)) := by
  refine ⟨⟨?_, ?_⟩, ?_, ?_, ?_⟩
  · norm_num [knapsack_dp, dpStep, dpInner, dictGet?, dictSet, bestState, tracebackAux,
      applyCategoryFilter, filterStep, defaultItem, pyInt, centScale, sumValue, sumCost,
      sumWeight, limitsActive, List.enum, List.enumFrom, Prod.mk.injEq,
      -Prod.mk_zero_zero]
  · norm_num [sumCost]
  · norm_num [knapsack_greedy, greedyStep, categoryBlocked, limitsActive, dictGet?,
      dictSet, countCat, ratioKey, List.mergeSort, List.filter]
  · rw [dictGet?, if_pos rfl]
  · omega

/-- C1 amended: the greedy selection always satisfies `total_cost ≤ budget`,
`total_weight ≤ max_weight` and every cap on a *nonempty* category name (a cap keyed by
the empty string is not enforced by greedy, which never counts unnamed categories).  The
DP selection satisfies the same bounds and every category cap *whenever the call returns*
and all costs, weights, the budget and the max weight are exact multiples of `0.01` (in
general the `int(x*100)` truncation can overshoot the budget/weight by up to the
truncation error).  Totals are the sums recomputed over the returned items. -/
theorem claim_C1_amended :
    (∀ (items : List Item) (budget max_weight : ℚ)
      (category_limit : Option (List (String × ℕ))),
      0 ≤ budget → 0 ≤ max_weight →
      sumCost (knapsack_greedy items budget max_weight category_limit).1 ≤ budget ∧
      sumWeight (knapsack_greedy items budget max_weight category_limit).1 ≤ max_weight ∧
      (∀ m cat lim, category_limit = some m → dictGet? m cat = some lim → cat ≠ "" →
        countCat (knapsack_greedy items budget max_weight category_limit).1 cat ≤ lim)) ∧
    (∀ (items : List Item) (budget max_weight : ℚ)
      (category_limit : Option (List (String × ℕ))) (sel : List Item) (v c w : ℚ),
      (∀ it ∈ items, 0 < it.value ∧ 0 ≤ it.cost ∧ 0 ≤ it.weight) →
      0 ≤ budget → 0 ≤ max_weight →
      (∀ it ∈ items, centExact it.cost ∧ centExact it.weight) →
      centExact budget → centExact max_weight →
      knapsack_dp items budget max_weight category_limit = some (sel, v, c, w) →
      sumCost sel ≤ budget ∧ sumWeight sel ≤ max_weight ∧
      (∀ m cat lim, category_limit = some m → dictGet? m cat = some lim →
        countCat sel cat ≤ lim)) := by
  constructor
  · intro items budget max_weight cl hb hw
    have hinv := greedy_foldl_inv budget max_weight cl
      (items.mergeSort (fun a b => decide (ratioKey b ≤ ratioKey a))) ⟨[], 0, 0, 0, []⟩
      (greedyInv_init budget max_weight cl hb hw)
    refine ⟨?_, ?_, ?_⟩
    · rw [show (knapsack_greedy items budget max_weight cl).1 =
        ((items.mergeSort (fun a b => decide (ratioKey b ≤ ratioKey a))).foldl
          (greedyStep budget max_weight cl) ⟨[], 0, 0, 0, []⟩).selected from rfl,
        ← hinv.cost_eq]
      exact hinv.cost_le
    · rw [show (knapsack_greedy items budget max_weight cl).1 =
        ((items.mergeSort (fun a b => decide (ratioKey b ≤ ratioKey a))).foldl
          (greedyStep budget max_weight cl) ⟨[], 0, 0, 0, []⟩).selected from rfl,
        ← hinv.weight_eq]
      exact hinv.weight_le
    · intro m cat lim hm hlook hcat
      exact hinv.caps m cat lim hm hlook hcat
  · intro items budget max_weight cl sel v c w hitems hb hw hexact hbex hwex hdp
    obtain ⟨idxs, htb, hseleq, hveq, hceq, hweq⟩ :=
      knapsack_dp_elim items budget max_weight cl sel v c w hdp
    set stF := List.foldl (dpStep (pyInt (budget * 100)) (pyInt (max_weight * 100)))
      ⟨[((0, 0), 0)], [((0, 0), none)]⟩ items.enum with hstF
    have hbi : (0 : ℤ) ≤ pyInt (budget * 100) := centScale_nonneg budget hb
    have hmwi : (0 : ℤ) ≤ pyInt (max_weight * 100) := centScale_nonneg max_weight hw
    have inv : DpInv items (pyInt (budget * 100)) (pyInt (max_weight * 100)) stF := by
      rw [hstF]
      exact dpFold_inv items (pyInt (budget * 100)) (pyInt (max_weight * 100))
        items.enum ⟨[((0, 0), 0)], [((0, 0), none)]⟩
        (dpInv_init items _ _ hbi hmwi)
        (fun p hp => ⟨(mem_enum_spec items p hp).1, (mem_enum_spec items p hp).2,
          le_of_lt (hitems p.2 (mem_enum_snd_mem items p hp)).1⟩)
    obtain ⟨hdom, hbmem⟩ := bestState_spec stF.dp
    have hbk : (bestState stF.dp).2 ∈ stF.dp.map Prod.fst := by
      rcases hbmem with hb0 | hbm
      · rw [hb0]
        exact inv.origin_mem
      · exact List.mem_map.2 ⟨_, hbm, rfl⟩
    obtain ⟨chain, hchain_eq, hsum1, hsum2, hclt, hval⟩ :=
      tracebackAux_spec items _ _ stF inv _ _ [] idxs htb hbk
    rw [List.nil_append] at hchain_eq
    subst hchain_eq
    obtain ⟨ub, hub⟩ := dictGet?_isSome_of_mem _ _ hbk
    have hbounds := inv.bounds _ (dictGet?_mem _ _ _ hub)
    have hselmem : ∀ it ∈ sel, it ∈ items := by
      intro it hit
      rw [hseleq] at hit
      obtain ⟨i, hi, rfl⟩ := List.mem_map.1 hit
      have hi' := (applyCategoryFilter_sublist cl items idxs.reverse).subset hi
      rw [List.mem_reverse] at hi'
      exact getD_mem items i (hclt i hi')
    have hcost : sumCost sel ≤ budget := by
      have hselcost : (sel.map (fun it => centScale it.cost)).sum ≤
          pyInt (budget * 100) := by
        rw [hseleq, List.map_map]
        have hnn : ∀ x ∈ idxs.reverse.map
            (fun i => centScale (items.getD i defaultItem).cost), (0 : ℤ) ≤ x := by
          intro x hx
          obtain ⟨i, hi, rfl⟩ := List.mem_map.1 hx
          rw [List.mem_reverse] at hi
          exact centScale_nonneg _ (hitems _ (getD_mem items i (hclt i hi))).2.1
        have hsub2 := ((applyCategoryFilter_sublist cl items idxs.reverse).map
          (fun i => centScale (items.getD i defaultItem).cost)).sum_le_sum hnn
        refine le_trans hsub2 ?_
        rw [List.map_reverse, List.sum_reverse, ← hsum1]
        exact hbounds.1
      rw [sumCost]
      exact sum_le_of_cent sel (·.cost) budget
        (fun it hit => (hexact it (hselmem it hit)).1) hbex hselcost
    have hweight : sumWeight sel ≤ max_weight := by
      have hselw : (sel.map (fun it => centScale it.weight)).sum ≤
          pyInt (max_weight * 100) := by
        rw [hseleq, List.map_map]
        have hnn : ∀ x ∈ idxs.reverse.map
            (fun i => centScale (items.getD i defaultItem).weight), (0 : ℤ) ≤ x := by
          intro x hx
          obtain ⟨i, hi, rfl⟩ := List.mem_map.1 hx
          rw [List.mem_reverse] at hi
          exact centScale_nonneg _ (hitems _ (getD_mem items i (hclt i hi))).2.2
        have hsub2 := ((applyCategoryFilter_sublist cl items idxs.reverse).map
          (fun i => centScale (items.getD i defaultItem).weight)).sum_le_sum hnn
        refine le_trans hsub2 ?_
        rw [List.map_reverse, List.sum_reverse, ← hsum2]
        exact hbounds.2
      rw [sumWeight]
      exact sum_le_of_cent sel (·.weight) max_weight
        (fun it hit => (hexact it (hselmem it hit)).2) hwex hselw
    refine ⟨hcost, hweight, ?_⟩
    intro m cat lim hm hlook
    rw [hseleq]
    exact applyCategoryFilter_caps cl items idxs.reverse m cat lim hm hlook

/-- Witness for C1 (amended) at concrete instances. -/
theorem claim_C1_witness :
    (sumCost (knapsack_greedy [⟨2, 1, 1, "a"⟩] 10 10 (some [("a", 1)])).1 ≤ 10 ∧
      sumWeight (knapsack_greedy [⟨2, 1, 1, "a"⟩] 10 10 (some [("a", 1)])).1 ≤ 10 ∧
      countCat (knapsack_greedy [⟨2, 1, 1, "a"⟩] 10 10 (some [("a", 1)])).1 "a" ≤ 1) ∧
    (sumCost [(⟨2, 1, 1, "a"⟩ : Item)] ≤ 10 ∧
      sumWeight [(⟨2, 1, 1, "a"⟩ : Item)] ≤ 10) := by
  constructor
  · obtain ⟨h1, h2, h3⟩ := claim_C1_amended.1 [⟨2, 1, 1, "a"⟩] 10 10 (some [("a", 1)])
      (by norm_num) (by norm_num)
    exact ⟨h1, h2, h3 [("a", 1)] "a" 1 rfl (by rw [dictGet?, if_pos rfl]) (by decide)⟩
  · have h := claim_C1_amended.2 [⟨2, 1, 1, "a"⟩] 10 10 none [⟨2, 1, 1, "a"⟩] 2 1 1
      (by
        intro it hit
        rcases List.mem_singleton.1 hit with rfl
        norm_num)
      (by norm_num) (by norm_num)
      (by
        intro it hit
        rcases List.mem_singleton.1 hit with rfl
        exact ⟨⟨100, by norm_num⟩, ⟨100, by norm_num⟩⟩)
      ⟨1000, by norm_num⟩ ⟨1000, by norm_num⟩
      (by
        norm_num [knapsack_dp, dpStep, dpInner, dictGet?, dictSet, bestState,
          tracebackAux, applyCategoryFilter, filterStep, defaultItem, pyInt, centScale,
          sumValue, sumCost, sumWeight, limitsActive, List.enum, List.enumFrom,
          Prod.mk.injEq, -Prod.mk_zero_zero])
    exact ⟨h.1, h.2.1⟩

/-- C3: on any instance of well-formed items (positive value, nonnegative cost and
weight), nonnegative budget and max weight, and no category-limit map, the total value
returned by a terminating `knapsack_dp` run is at least the total value returned by
`knapsack_greedy`.  (The DP's stored values dominate the value of every feasible
single-use selection — the greedy selection in particular — and the recomputed total of
the traced selection dominates the stored best value.) -/
theorem claim_C3 (items : List Item) (budget max_weight : ℚ)
    (hitems : ∀ it ∈ items, 0 < it.value ∧ 0 ≤ it.cost ∧ 0 ≤ it.weight)
    (hb : 0 ≤ budget) (hw : 0 ≤ max_weight)
    (sel : List Item) (v c w : ℚ)
    (hdp : knapsack_dp items budget max_weight none = some (sel, v, c, w)) :
    (knapsack_greedy items budget max_weight none).2.1 ≤ v := by
  obtain ⟨idxs, htb, hseleq, hveq, hceq, hweq⟩ :=
    knapsack_dp_elim items budget max_weight none sel v c w hdp
  rw [applyCategoryFilter_none] at hseleq
  set stF := List.foldl (dpStep (pyInt (budget * 100)) (pyInt (max_weight * 100)))
    ⟨[((0, 0), 0)], [((0, 0), none)]⟩ items.enum with hstF
  have hbi : (0 : ℤ) ≤ pyInt (budget * 100) := centScale_nonneg budget hb
  have hmwi : (0 : ℤ) ≤ pyInt (max_weight * 100) := centScale_nonneg max_weight hw
  have inv : DpInv items (pyInt (budget * 100)) (pyInt (max_weight * 100)) stF := by
    rw [hstF]
    exact dpFold_inv items (pyInt (budget * 100)) (pyInt (max_weight * 100))
      items.enum ⟨[((0, 0), 0)], [((0, 0), none)]⟩
      (dpInv_init items _ _ hbi hmwi)
      (fun p hp => ⟨(mem_enum_spec items p hp).1, (mem_enum_spec items p hp).2,
        le_of_lt (hitems p.2 (mem_enum_snd_mem items p hp)).1⟩)
  have hreach : dpReaches items (pyInt (budget * 100)) (pyInt (max_weight * 100))
      stF := by
    rw [hstF]
    have h := dpFold_reaches (pyInt (budget * 100)) (pyInt (max_weight * 100)) items.enum
      ⟨[((0, 0), 0)], [((0, 0), none)]⟩ [] (dpReaches_init _ _)
      (by intro it hit; simp at hit)
      (fun p hp => ⟨le_of_lt (hitems p.2 (mem_enum_snd_mem items p hp)).1,
        (hitems p.2 (mem_enum_snd_mem items p hp)).2.1,
        (hitems p.2 (mem_enum_snd_mem items p hp)).2.2⟩)
    rw [List.nil_append, List.enum_map_snd] at h
    exact h
  obtain ⟨hdom, hbmem⟩ := bestState_spec stF.dp
  have hbk : (bestState stF.dp).2 ∈ stF.dp.map Prod.fst := by
    rcases hbmem with hb0 | hbm
    · rw [hb0]
      exact inv.origin_mem
    · exact List.mem_map.2 ⟨_, hbm, rfl⟩
  obtain ⟨chain, hchain_eq, hsum1, hsum2, hclt, hval⟩ :=
    tracebackAux_spec items _ _ stF inv _ _ [] idxs htb hbk
  rw [List.nil_append] at hchain_eq
  subst hchain_eq
  obtain ⟨t, ht, htsub⟩ := greedy_foldl_sublist budget max_weight none
    (items.mergeSort (fun a b => decide (ratioKey b ≤ ratioKey a))) ⟨[], 0, 0, 0, []⟩
  have ht' : ((items.mergeSort (fun a b => decide (ratioKey b ≤ ratioKey a))).foldl
      (greedyStep budget max_weight none) ⟨[], 0, 0, 0, []⟩).selected = t := by
    rw [ht]
    rfl
  have hginv := greedy_foldl_inv budget max_weight none
    (items.mergeSort (fun a b => decide (ratioKey b ≤ ratioKey a))) ⟨[], 0, 0, 0, []⟩
    (greedyInv_init budget max_weight none hb hw)
  have hgval : (knapsack_greedy items budget max_weight none).2.1 = sumValue t := by
    rw [show (knapsack_greedy items budget max_weight none).2.1 =
      ((items.mergeSort (fun a b => decide (ratioKey b ≤ ratioKey a))).foldl
        (greedyStep budget max_weight none) ⟨[], 0, 0, 0, []⟩).total_value from rfl,
      hginv.value_eq, ht']
  rw [hgval]
  have hce := hginv.cost_eq
  rw [ht'] at hce
  have htc := hginv.cost_le
  rw [hce] at htc
  have hwe := hginv.weight_eq
  rw [ht'] at hwe
  have htw := hginv.weight_le
  rw [hwe] at htw
  have hsp : t.Subperm items :=
    htsub.subperm.trans (List.mergeSort_perm items
      (fun a b => decide (ratioKey b ≤ ratioKey a))).subperm
  obtain ⟨s', hs'p, hs's⟩ := hsp
  have hmem' : ∀ it ∈ s', it ∈ items := fun it hit => hs's.subset hit
  have hvals' : sumValue s' = sumValue t := by
    rw [sumValue, sumValue]
    exact (hs'p.map (·.value)).sum_eq
  have hcosts' : sumCost s' = sumCost t := by
    rw [sumCost, sumCost]
    exact (hs'p.map (·.cost)).sum_eq
  have hweights' : sumWeight s' = sumWeight t := by
    rw [sumWeight, sumWeight]
    exact (hs'p.map (·.weight)).sum_eq
  have hcint : centCostSum s' ≤ pyInt (budget * 100) := by
    rw [centCostSum]
    refine centSum_le_scaled s' (·.cost) budget ?_ ?_
    · intro it hit
      exact (hitems it (hmem' it hit)).2.1
    · rw [show (s'.map (·.cost)).sum = sumCost s' from rfl, hcosts']
      exact htc
  have hwint : centWeightSum s' ≤ pyInt (max_weight * 100) := by
    rw [centWeightSum]
    refine centSum_le_scaled s' (·.weight) max_weight ?_ ?_
    · intro it hit
      exact (hitems it (hmem' it hit)).2.2
    · rw [show (s'.map (·.weight)).sum = sumWeight s' from rfl, hweights']
      exact htw
  obtain ⟨u, hu, hsv⟩ := hreach s' hs's hcint hwint
  have hub : u ≤ (bestState stF.dp).1 := hdom _ (dictGet?_mem _ _ _ hu)
  have hv0 : 0 ≤ v := by
    rw [hveq, hseleq, sumValue]
    refine List.sum_nonneg ?_
    intro x hx
    obtain ⟨it, hit, rfl⟩ := List.mem_map.1 hx
    obtain ⟨i, hi, rfl⟩ := List.mem_map.1 hit
    rw [List.mem_reverse] at hi
    exact le_of_lt (hitems _ (getD_mem items i (hclt i hi))).1
  have hvchain : (bestState stF.dp).1 ≤ v := by
    rcases hbmem with hb0 | hbm
    · rw [hb0]
      exact hv0
    · have hlook : dictGet? stF.dp (bestState stF.dp).2 = some (bestState stF.dp).1 :=
        dictGet?_of_mem_nodup _ _ _ inv.nodup hbm
      have hbc := hval _ hlook
      rw [hveq, hseleq, sumValue, List.map_map, List.map_reverse, List.sum_reverse]
      exact hbc
  rw [← hvals']
  exact le_trans hsv (le_trans hub hvchain)

/-- Witness for C3 at the spec's concrete scenario 2 (DP finds 220, greedy 160). -/
theorem claim_C3_witness :
    (knapsack_greedy [⟨60, 10, 1, ""⟩, ⟨100, 20, 2, ""⟩, ⟨120, 30, 3, ""⟩]
      50 5 none).2.1 ≤ 220 :=
  claim_C3 [⟨60, 10, 1, ""⟩, ⟨100, 20, 2, ""⟩, ⟨120, 30, 3, ""⟩] 50 5
    (by
      intro it hit
      simp only [List.mem_cons, List.not_mem_nil, or_false] at hit
      rcases hit with rfl | rfl | rfl <;> norm_num)
    (by norm_num) (by norm_num)
    [⟨100, 20, 2, ""⟩, ⟨120, 30, 3, ""⟩] 220 50 5
    (by
      norm_num [knapsack_dp, dpStep, dpInner, dictGet?, dictSet, bestState,
        tracebackAux, applyCategoryFilter, filterStep, defaultItem, pyInt, centScale,
        sumValue, sumCost, sumWeight, limitsActive, List.enum, List.enumFrom,
        Prod.mk.injEq, -Prod.mk_zero_zero])

end AlgoArcade
